import Mathlib

/- Verification of the ReplayBuffer bit/byte decoder (sc2reader utils.py).

The embedding models the byte stream as a list of naturals (each < 256 for a
well-formed stream), the cStringIO position as a natural number, and the
sub-byte read state (bit_shift, last_byte) exactly as in the source.  Fallible
operations return Except Err.  Python raises several distinct exception kinds;
they are kept distinct here:
  - eof          : EOFError (raised inside shift/read after catching TypeError)
  - typeError    : an uncaught TypeError, e.g. ord of an empty read
  - valueError   : ValueError (shift wider than the bits left in the byte)
  - structError  : struct.error from unpacking a short byte string
  - indexError   : IndexError from indexing an empty list
  - ioError      : IOError from seeking to a negative position
  - unknownTag t : TypeError raised by read_data_struct for a bad tag byte
  - fuel         : out of fuel; an artifact of the embedding of unbounded
                   loops, unreachable when the fuel exceeds the buffer length
-/

namespace SC2

inductive Err where
  | eof
  | typeError
  | valueError
  | structError
  | indexError
  | ioError
  | fuel
  | unknownTag (tag : Nat)
deriving Repr, DecidableEq

inductive Endian where
  | little
  | big
deriving Repr, DecidableEq

inductive SeekMode where
  | set
  | cur
  | fromEnd
deriving Repr, DecidableEq

/-- The cursor state: the wrapped byte buffer, the cStringIO byte position,
and the sub-byte state (`self.bit_shift`, `self.last_byte`). -/
structure ReplayBuffer where
  data : List Nat
  pos : Nat
  bit_shift : Nat
  last_byte : Option Nat
deriving Repr, DecidableEq

namespace ReplayBuffer

/-- Construction from a byte string: position 0, bit_shift 0, last_byte None. -/
def ofBytes (data : List Nat) : ReplayBuffer := ⟨data, 0, 0, none⟩

def length (b : ReplayBuffer) : Nat := b.data.length

def tell (b : ReplayBuffer) : Nat := b.pos

def cursor (b : ReplayBuffer) : Nat := b.pos

def left (b : ReplayBuffer) : Nat := b.length - b.pos

/-- The `self.lo_masks` table from __init__. -/
def lo_masks : List Nat := [0x00, 0x01, 0x03, 0x07, 0x0F, 0x1F, 0x3F, 0x7F, 0xFF]

/-- Model of `self.read_basic(n)` (cStringIO.read): returns up to n bytes,
silently fewer when the stream is short, advancing by the bytes returned. -/
def read_basic (b : ReplayBuffer) (n : Nat) : List Nat × ReplayBuffer :=
  ((b.data.drop b.pos).take n,
   { b with pos := b.pos + min n (b.data.length - b.pos) })

/-- Model of `seek(position, mode)`.  cStringIO raises IOError on a negative
resulting offset.  When the resulting offset and the bit shift are both
non-zero the preceding byte is re-read into the cache; re-reading past the end
gives ord of an empty string, an uncaught TypeError. -/
def seekTarget (b : ReplayBuffer) (position : Int) (mode : SeekMode) : Int :=
  match mode with
  | .set => position
  | .cur => (b.pos : Int) + position
  | .fromEnd => (b.data.length : Int) + position

def seek (b : ReplayBuffer) (position : Int) (mode : SeekMode) :
    Except Err ReplayBuffer :=
  let target := seekTarget b position mode
  if target < 0 then .error .ioError
  else
    let b1 := { b with pos := target.toNat }
    if b1.pos ≠ 0 ∧ b1.bit_shift ≠ 0 then
      match b1.data[b1.pos - 1]? with
      | some v => .ok { b1 with last_byte := some v }
      | none => .error .typeError
    else .ok b1

/-- `skip(amount)` is `seek(amount, SEEK_CUR)`. -/
def skip (b : ReplayBuffer) (amount : Int) : Except Err ReplayBuffer :=
  seek b amount .cur

/-- `reset()`: `self.io.seek(0); self.bit_shift = 0` (the cache is not
touched). -/
def reset (b : ReplayBuffer) : ReplayBuffer :=
  { b with pos := 0, bit_shift := 0 }

/-- `align()`: drop in-progress sub-byte state. -/
def align (b : ReplayBuffer) : ReplayBuffer :=
  { b with bit_shift := 0 }

/-- Core single-byte bit read `shift(bits)`.  The source wraps the body in
try/except TypeError -> EOFError; the two TypeError sources (ord of an empty
read when loading a byte, and shifting a None cache) are mapped to eof
directly. -/
def shift (b : ReplayBuffer) (bits : Nat) : Except Err (Nat × ReplayBuffer) :=
  let new_shift := b.bit_shift + bits
  if new_shift ≤ 8 then
    if b.bit_shift = 0 then
      match b.data[b.pos]? with
      | none => .error .eof
      | some v =>
        .ok ((v >>> b.bit_shift) &&& lo_masks.getD bits 0,
             { b with pos := b.pos + 1, last_byte := some v,
                      bit_shift := if new_shift = 8 then 0 else new_shift })
    else
      match b.last_byte with
      | none => .error .eof
      | some v =>
        .ok ((v >>> b.bit_shift) &&& lo_masks.getD bits 0,
             { b with bit_shift := if new_shift = 8 then 0 else new_shift })
  else .error .valueError

/-- The precomputed `read_state` entry for a pair of bit shifts
(`load_state`).  In the source `adjustment_mask` is `2**adjustment-1`, which
for a negative adjustment is a junk float that is never used; it is stored
here as 0 in that case. -/
structure ReadState where
  old_bit_shift_inv : Nat
  lo_mask : Nat
  lo_mask_inv : Nat
  hi_mask : Nat
  hi_mask_inv : Nat
  last_mask : Nat
  adjustment : Int
  adjustment_mask : Nat
deriving Repr, DecidableEq

def load_state (old_bit_shift new_bit_shift : Nat) : ReadState :=
  let old_bit_shift_inv := 8 - old_bit_shift
  let lo_mask := 2 ^ old_bit_shift - 1
  -- 0xFF - 2**(8-old)+1 over the integers; reassociated for Nat subtraction
  let lo_mask_inv := 0xFF + 1 - 2 ^ (8 - old_bit_shift)
  let hi_mask := 0xFF ^^^ lo_mask
  let hi_mask_inv := 0xFF ^^^ lo_mask_inv
  if new_bit_shift = 0 then
    { old_bit_shift_inv := old_bit_shift_inv, lo_mask := lo_mask,
      lo_mask_inv := lo_mask_inv, hi_mask := hi_mask, hi_mask_inv := hi_mask_inv,
      last_mask := 0xFF, adjustment := (8 : Int) - old_bit_shift,
      adjustment_mask := 2 ^ (8 - old_bit_shift) - 1 }
  else
    { old_bit_shift_inv := old_bit_shift_inv, lo_mask := lo_mask,
      lo_mask_inv := lo_mask_inv, hi_mask := hi_mask, hi_mask_inv := hi_mask_inv,
      last_mask := 2 ^ new_bit_shift - 1,
      adjustment := (new_bit_shift : Int) - old_bit_shift,
      adjustment_mask :=
        if old_bit_shift ≤ new_bit_shift then 2 ^ (new_bit_shift - old_bit_shift) - 1
        else 0 }

/-- The while loop of `read`.  Entered after the first stream byte has been
read into `next` and `bit_count` has been decreased by the bits taken from the
cached byte; returns the assembled bytes, the final stream position, and the
final value of `next` (which becomes the new cached byte). -/
def readLoop (data : List Nat) (st : ReadState) (old : Nat)
    (pos first next bitCount : Nat) (acc : List Nat) :
    Except Err (List Nat × Nat × Nat) :=
  if bitCount = 0 then .ok (acc, pos, next)
  else if bitCount ≤ 8 then
    let last := next &&& st.last_mask
    if st.adjustment < 0 then
      .ok (acc ++ [(first >>> st.adjustment.natAbs) ||| last], pos, next)
    else if 0 < st.adjustment then
      .ok (acc ++ [last &&& st.adjustment_mask,
                   first ||| (last >>> st.adjustment.toNat)], pos, next)
    else
      .ok (acc ++ [first ||| last], pos, next)
  else
    let second := (next &&& st.lo_mask_inv) >>> st.old_bit_shift_inv
    let first2 := (next &&& st.hi_mask_inv) <<< old
    match data[pos]? with
    | some nx =>
      readLoop data st old (pos + 1) first2 nx (bitCount - 8)
        (acc ++ [first ||| second])
    | none => .error .eof
termination_by bitCount
decreasing_by omega

/-- The byte-aligned fast path of `read`: `[ord(self.read_basic(1)) for _ in
range(bytes)]`; ord of an empty read raises TypeError, caught as eof. -/
def readAligned (b : ReplayBuffer) (n : Nat) : Except Err (List Nat × ReplayBuffer) :=
  match n with
  | 0 => .ok ([], b)
  | n + 1 =>
    match b.data[b.pos]? with
    | none => .error .eof
    | some v =>
      match readAligned { b with pos := b.pos + 1 } n with
      | .ok (rest, b2) => .ok (v :: rest, b2)
      | .error e => .error e

/-- Core multi-byte read `read(bytes, bits)`. -/
def read (b : ReplayBuffer) (bytes bits : Nat) : Except Err (List Nat × ReplayBuffer) :=
  let bytesN := bytes + bits / 8
  let bitsN := bits % 8
  let bit_count := bytesN * 8 + bitsN
  if bit_count = 0 then .ok ([], b)
  else if bit_count ≤ 8 - b.bit_shift then
    match shift b bit_count with
    | .ok (v, b2) => .ok ([v], b2)
    | .error e => .error e
  else if b.bit_shift = 0 then
    match readAligned b bytesN with
    | .error e => .error e
    | .ok (base, b2) =>
      if bitsN ≠ 0 then
        match shift b2 bitsN with
        | .ok (v, b3) => .ok (base ++ [v], b3)
        | .error e => .error e
      else .ok (base, b2)
  else
    match b.data[b.pos]?, b.last_byte with
    | some next, some prev =>
      let old := b.bit_shift
      let nw := (b.bit_shift + bitsN) % 8
      let st := load_state old nw
      match readLoop b.data st old (b.pos + 1) (prev &&& st.hi_mask) next
              (bit_count - (8 - old)) [] with
      | .ok (raw, pos2, next2) =>
        .ok (raw, { b with pos := pos2, bit_shift := nw, last_byte := some next2 })
      | .error e => .error e
    | _, _ => .error .eof

/-- `read_chars(length)`: a silent, possibly short, direct read when
byte-aligned; the assembled bit-shifted read otherwise. -/
def read_chars (b : ReplayBuffer) (length : Nat) : Except Err (List Nat × ReplayBuffer) :=
  if b.bit_shift = 0 then .ok (read_basic b length)
  else read b length 0

/-- One hex digit as a character code. -/
def hexDigit (n : Nat) : Nat := if n < 10 then 48 + n else 87 + n

/-- `read_hex(length)`: the chars rendered two hex character codes per byte. -/
def read_hex (b : ReplayBuffer) (length : Nat) : Except Err (List Nat × ReplayBuffer) :=
  match read_chars b length with
  | .ok (chars, b2) =>
    .ok (chars.flatMap (fun c => [hexDigit (c / 16), hexDigit (c % 16)]), b2)
  | .error e => .error e

/-- `peek(length)`: save (cursor, last_byte), read hex, seek back, restore the
cache. -/
def peek (b : ReplayBuffer) (length : Nat) : Except Err (List Nat × ReplayBuffer) :=
  let start := cursor b
  let last := b.last_byte
  match read_hex b length with
  | .error e => .error e
  | .ok (ret, b1) =>
    match seek b1 (start : Int) .set with
    | .error e => .error e
    | .ok b2 => .ok (ret, { b2 with last_byte := last })

/-- `read_byte()`: `ord(self.read_basic(1))` when aligned (an uncaught
TypeError at end of stream), otherwise `self.read(1)[0]`. -/
def read_byte (b : ReplayBuffer) : Except Err (Nat × ReplayBuffer) :=
  if b.bit_shift = 0 then
    match b.data[b.pos]? with
    | some v => .ok (v, { b with pos := b.pos + 1 })
    | none => .error .typeError
  else
    match read b 1 0 with
    | .ok (l, b2) =>
      match l.head? with
      | some v => .ok (v, b2)
      | none => .error .indexError
    | .error e => .error e

/-- struct.unpack of a 2-byte integer; struct.error unless exactly 2 bytes. -/
def unpackShort (endian : Endian) (chars : List Nat) : Except Err Nat :=
  match chars, endian with
  | [c0, c1], .little => .ok (c0 + 256 * c1)
  | [c0, c1], .big => .ok (256 * c0 + c1)
  | _, _ => .error .structError

/-- struct.unpack of a 4-byte integer; struct.error unless exactly 4 bytes. -/
def unpackInt (endian : Endian) (chars : List Nat) : Except Err Nat :=
  match chars, endian with
  | [c0, c1, c2, c3], .little =>
    .ok (c0 + 256 * c1 + 65536 * c2 + 16777216 * c3)
  | [c0, c1, c2, c3], .big =>
    .ok (c3 + 256 * c2 + 65536 * c1 + 16777216 * c0)
  | _, _ => .error .structError

/-- `read_short(endian)`. -/
def read_short (b : ReplayBuffer) (endian : Endian) : Except Err (Nat × ReplayBuffer) :=
  match (if b.bit_shift = 0 then .ok (read_basic b 2) else read_chars b 2 :
         Except Err (List Nat × ReplayBuffer)) with
  | .error e => .error e
  | .ok (chars, b2) =>
    match unpackShort endian chars with
    | .ok v => .ok (v, b2)
    | .error e => .error e

/-- `read_int(endian)`. -/
def read_int (b : ReplayBuffer) (endian : Endian) : Except Err (Nat × ReplayBuffer) :=
  match (if b.bit_shift = 0 then .ok (read_basic b 4) else read_chars b 4 :
         Except Err (List Nat × ReplayBuffer)) with
  | .error e => .error e
  | .ok (chars, b2) =>
    match unpackInt endian chars with
    | .ok v => .ok (v, b2)
    | .error e => .error e

/-- `read_count()`: one byte divided by two. -/
def read_count (b : ReplayBuffer) : Except Err (Nat × ReplayBuffer) :=
  match read_byte b with
  | .ok (v, b2) => .ok (v / 2, b2)
  | .error e => .error e

/-- `read_string(length)`: the source uses `read_byte` (the raw byte, not
halved) when no explicit length is given. -/
def read_string (b : ReplayBuffer) (length : Option Nat) : Except Err (List Nat × ReplayBuffer) :=
  match length with
  | some l => read_chars b l
  | none =>
    match read_byte b with
    | .ok (l, b2) => read_chars b2 l
    | .error e => .error e

/-- The while loop of `read_variable_int`, with fuel (the loop consumes at
least one stream byte per iteration, so any fuel above the buffer length is
enough). -/
def readVarIntLoop : ReplayBuffer → Nat → Nat → Nat → Nat → Except Err (Nat × ReplayBuffer)
  | _, _, _, _, 0 => .error .fuel
  | b, byte, shiftC, value, fuel + 1 =>
    if byte &&& 0x80 ≠ 0 then
      match read_byte b with
      | .ok (nb, b2) =>
        readVarIntLoop b2 nb (shiftC + 1) (((nb &&& 0x7F) <<< (shiftC * 7)) ||| value) fuel
      | .error e => .error e
    else .ok (value, b)

/-- `read_variable_int()`: Blizzard variable-length signed integer. -/
def read_variable_int (b : ReplayBuffer) : Except Err (Int × ReplayBuffer) :=
  match read_byte b with
  | .error e => .error e
  | .ok (byte, b1) =>
    match readVarIntLoop b1 byte 1 (byte &&& 0x7F) (b1.data.length + 1) with
    | .error e => .error e
    | .ok (value, b2) =>
      .ok ((if value &&& 0x1 = 1 then (-1 : Int) else 1) * ((value >>> 1 : Nat) : Int), b2)

/-- `read_timestamp()`. -/
def read_timestamp (b : ReplayBuffer) : Except Err (Nat × ReplayBuffer) :=
  match read_byte b with
  | .error e => .error e
  | .ok (first, b1) =>
    let time := first >>> 2
    let count := first &&& 0x03
    if count = 0 then .ok (time, b1)
    else if count = 1 then
      match read_byte b1 with
      | .ok (v, b2) => .ok ((time <<< 8) ||| v, b2)
      | .error e => .error e
    else if count = 2 then
      match read_short b1 .little with
      | .ok (v, b2) => .ok ((time <<< 16) ||| v, b2)
      | .error e => .error e
    else if count = 3 then
      match read_short b1 .little with
      | .ok (v, b2) =>
        match read_byte b2 with
        | .ok (w, b3) => .ok ((time <<< 24) ||| ((v <<< 8) ||| w), b3)
        | .error e => .error e
      | .error e => .error e
    else .error .valueError

/-- The local `_make_mask` of `read_bitmask`. -/
def _make_mask (byte bit_length current : Nat) : List Bool :=
  if current < bit_length then
    (decide (0 < byte &&& 2 ^ (bit_length - current))) ::
      _make_mask byte bit_length (current + 1)
  else
    [byte &&& 0x1 == 0x01]
termination_by bit_length - current
decreasing_by omega

/-- `read_bitmask()`. -/
def read_bitmask (b : ReplayBuffer) : Except Err (List Bool × ReplayBuffer) :=
  match read_byte b with
  | .error e => .error e
  | .ok (length, b1) =>
    match read b1 0 length with
    | .error e => .error e
    | .ok (bytesList, b2) =>
      let mask := bytesList.reverse.foldl (fun m byte => (m <<< 8) ||| byte) 0
      .ok ((_make_mask mask length 1).reverse, b2)

/-- The dynamically shaped value tree produced by `read_data_struct`.  All of
the integer-producing tags (0x06 byte, 0x07 int32, 0x09 variable int) produce
plain Python ints, modelled by a single constructor. -/
inductive DataStruct where
  | str (s : List Nat)
  | list (l : List DataStruct)
  | map (entries : List (Nat × DataStruct))
  | int (n : Int)

/-- Python dict assignment `data[key] = value`: replace the binding when the
key is present, append otherwise. -/
def mapInsert (entries : List (Nat × DataStruct)) (key : Nat) (value : DataStruct) :
    List (Nat × DataStruct) :=
  if entries.any (fun e => e.1 == key) then
    entries.map (fun e => if e.1 == key then (key, value) else e)
  else entries ++ [(key, value)]

mutual

/-- `read_data_struct()`, with fuel consumed on every recursive call.  Each
recursive decode consumes at least one byte (its tag), so any fuel above
twice the buffer length is enough. -/
def read_data_structF : Nat → ReplayBuffer → Except Err (DataStruct × ReplayBuffer)
  | 0, _ => .error .fuel
  | fuel + 1, b =>
    match read_byte b with
    | .error e => .error e
    | .ok (datatype, b1) =>
      if datatype = 0x02 then
        match read_count b1 with
        | .ok (count, b2) =>
          match read_string b2 (some count) with
          | .ok (s, b3) => .ok (.str s, b3)
          | .error e => .error e
        | .error e => .error e
      else if datatype = 0x04 then
        match skip b1 2 with
        | .ok b2 =>
          match read_count b2 with
          | .ok (count, b3) =>
            match readStructListF fuel count b3 with
            | .ok (items, b4) => .ok (.list items, b4)
            | .error e => .error e
          | .error e => .error e
        | .error e => .error e
      else if datatype = 0x05 then
        match read_count b1 with
        | .ok (count, b2) =>
          match readStructMapF fuel count b2 [] with
          | .ok (entries, b3) => .ok (.map entries, b3)
          | .error e => .error e
        | .error e => .error e
      else if datatype = 0x06 then
        match read_byte b1 with
        | .ok (v, b2) => .ok (.int (v : Int), b2)
        | .error e => .error e
      else if datatype = 0x07 then
        match read_int b1 .little with
        | .ok (v, b2) => .ok (.int (v : Int), b2)
        | .error e => .error e
      else if datatype = 0x09 then
        match read_variable_int b1 with
        | .ok (v, b2) => .ok (.int v, b2)
        | .error e => .error e
      else .error (.unknownTag datatype)

/-- The list comprehension of tag 0x04. -/
def readStructListF : Nat → Nat → ReplayBuffer → Except Err (List DataStruct × ReplayBuffer)
  | 0, _, _ => .error .fuel
  | _ + 1, 0, b => .ok ([], b)
  | fuel + 1, n + 1, b =>
    match read_data_structF fuel b with
    | .ok (d, b1) =>
      match readStructListF fuel n b1 with
      | .ok (rest, b2) => .ok (d :: rest, b2)
      | .error e => .error e
    | .error e => .error e

/-- The key/value loop of tag 0x05. -/
def readStructMapF : Nat → Nat → ReplayBuffer → List (Nat × DataStruct) →
    Except Err (List (Nat × DataStruct) × ReplayBuffer)
  | 0, _, _, _ => .error .fuel
  | _ + 1, 0, b, acc => .ok (acc, b)
  | fuel + 1, n + 1, b, acc =>
    match read_count b with
    | .ok (key, b1) =>
      match read_data_structF fuel b1 with
      | .ok (value, b2) => readStructMapF fuel n b2 (mapInsert acc key value)
      | .error e => .error e
    | .error e => .error e

end

/-- `read_data_struct()` at fuel that the buffer length makes sufficient. -/
def read_data_struct (b : ReplayBuffer) : Except Err (DataStruct × ReplayBuffer) :=
  read_data_structF (2 * b.data.length + 4) b

/-- The tag bytes `read_data_struct` recognizes. -/
def knownTags : List Nat := [0x02, 0x04, 0x05, 0x06, 0x07, 0x09]

/-- The cursor operations of the invariant claim: seek, skip, reset, align
and the read operations. -/
inductive Op where
  | seekOp (position : Int) (mode : SeekMode)
  | skipOp (amount : Int)
  | resetOp
  | alignOp
  | readByteOp
  | readShortOp (endian : Endian)
  | readIntOp (endian : Endian)
  | readCharsOp (n : Nat)
  | shiftOp (bits : Nat)
  | readOp (bytes bits : Nat)
deriving Repr, DecidableEq

def execOp (b : ReplayBuffer) : Op → Except Err ReplayBuffer
  | .seekOp p m => seek b p m
  | .skipOp a => skip b a
  | .resetOp => .ok (reset b)
  | .alignOp => .ok (align b)
  | .readByteOp =>
    match read_byte b with
    | .ok (_, b2) => .ok b2
    | .error e => .error e
  | .readShortOp en =>
    match read_short b en with
    | .ok (_, b2) => .ok b2
    | .error e => .error e
  | .readIntOp en =>
    match read_int b en with
    | .ok (_, b2) => .ok b2
    | .error e => .error e
  | .readCharsOp n =>
    match read_chars b n with
    | .ok (_, b2) => .ok b2
    | .error e => .error e
  | .shiftOp bits =>
    match shift b bits with
    | .ok (_, b2) => .ok b2
    | .error e => .error e
  | .readOp bytes bits =>
    match read b bytes bits with
    | .ok (_, b2) => .ok b2
    | .error e => .error e

def execOps (b : ReplayBuffer) : List Op → Except Err ReplayBuffer
  | [] => .ok b
  | op :: ops =>
    match execOp b op with
    | .ok b2 => execOps b2 ops
    | .error e => .error e

/-- A seek (or skip) lands in [0, length]; other operations are unrestricted. -/
def opInBounds (b : ReplayBuffer) : Op → Bool
  | .seekOp p m => decide (0 ≤ seekTarget b p m) && decide (seekTarget b p m ≤ (b.data.length : Int))
  | .skipOp a => decide (0 ≤ seekTarget b a .cur) && decide (seekTarget b a .cur ≤ (b.data.length : Int))
  | _ => true

def opsInBounds (b : ReplayBuffer) : List Op → Bool
  | [] => true
  | op :: ops =>
    opInBounds b op &&
      (match execOp b op with
       | .ok b2 => opsInBounds b2 ops
       | .error _ => true)

/-- The cursor invariant the code actually maintains: bit offset in [0,8),
offset within the buffer, and, whenever both the bit offset and the byte
offset are non-zero, the cache holds the byte before the offset. -/
def Inv (b : ReplayBuffer) : Prop :=
  b.bit_shift < 8 ∧ b.pos ≤ b.data.length ∧
    (b.bit_shift ≠ 0 → b.pos ≠ 0 → b.last_byte = b.data[b.pos - 1]?)

/-- Modelled from the spec: the invariant exactly as the specification words
it — a non-zero bit offset always implies the cache holds the byte at
offset−1 (which forces the offset to be at least 1). -/
def InvClaimed (b : ReplayBuffer) : Prop :=
  b.bit_shift < 8 ∧ b.pos ≤ b.data.length ∧
    (b.bit_shift ≠ 0 → 1 ≤ b.pos ∧ b.last_byte = b.data[b.pos - 1]?)

/-- Modelled from the spec: base-128 groups of the value, low 7 bits per
group, LSB-first group order, continuation flag in bit 7 (no encoder exists
in the source). -/
def encodeVarIntNat (v : Nat) : List Nat :=
  if v < 128 then [v]
  else (v % 128 + 128) :: encodeVarIntNat (v / 128)
termination_by v
decreasing_by exact Nat.div_lt_self (by omega) (by omega)

/-- Modelled from the spec: sign flag in bit 0 of the reassembled value,
magnitude in the remaining bits. -/
def encodeVarInt (n : Int) : List Nat :=
  encodeVarIntNat (2 * n.natAbs + if n < 0 then 1 else 0)

/-- Modelled from the spec: the reference read for the byte-aligned
equivalence property — shift(8) repeated `n` times followed by shift(k)
once. -/
def shiftRef : ReplayBuffer → Nat → Nat → Except Err (List Nat × ReplayBuffer)
  | b, 0, k =>
    match shift b k with
    | .ok (v, b2) => .ok ([v], b2)
    | .error e => .error e
  | b, n + 1, k =>
    match shift b 8 with
    | .ok (v, b1) =>
      match shiftRef b1 n k with
      | .ok (rest, b2) => .ok (v :: rest, b2)
      | .error e => .error e
    | .error e => .error e

/-- The number of stream bytes the read loop consumes after its first byte,
as a function of the loop entry bit count. -/
def needBytes (bc : Nat) : Nat :=
  if bc ≤ 8 then 0 else 1 + needBytes (bc - 8)
termination_by bc
decreasing_by omega

/- Helper lemmas -/

theorem lo_masks_getD {w : Nat} (hw : w ≤ 8) : lo_masks.getD w 0 = 2 ^ w - 1 := by
  interval_cases w <;> rfl

theorem shift_spec (b : ReplayBuffer) (w v : Nat)
    (hw : b.bit_shift + w ≤ 8)
    (hv : if b.bit_shift = 0 then b.data[b.pos]? = some v else b.last_byte = some v) :
    shift b w = .ok ((v >>> b.bit_shift) &&& lo_masks.getD w 0,
      { b with pos := b.pos + (if b.bit_shift = 0 then 1 else 0),
               last_byte := if b.bit_shift = 0 then some v else b.last_byte,
               bit_shift := if b.bit_shift + w = 8 then 0 else b.bit_shift + w }) := by
  by_cases h0 : b.bit_shift = 0 <;>
    simp [h0] at hv <;>
    simp [shift, h0, hv, hw] <;>
    omega

theorem drop_take_two (data : List Nat) (i x y : Nat)
    (hx : data[i]? = some x) (hy : data[i + 1]? = some y) :
    (data.drop i).take 2 = [x, y] := by
  rw [List.getElem?_eq_some_iff] at hx hy
  obtain ⟨hix, hx⟩ := hx
  obtain ⟨hiy, hy⟩ := hy
  rw [List.drop_eq_getElem_cons hix, List.drop_eq_getElem_cons hiy]
  simp [hx, hy]

/- Claim C1 -/

/-- C1 counterexample: with count byte 4 followed by four bytes, the claim
predicts a decoded length of 4/2 = 2, but read_string with no explicit
length reads 4 bytes. -/
theorem c1_counterexample :
    read_string (ofBytes [4, 65, 66, 67, 68]) none =
      .ok ([65, 66, 67, 68], ⟨[4, 65, 66, 67, 68], 5, 0, none⟩) ∧
    ([65, 66, 67, 68] : List Nat).length ≠ 4 / 2 :=
  ⟨rfl, by decide⟩

/-- C1 (amended): read_string with no explicit length argument reads one
byte whose RAW value (not divided by 2) is the string length, then reads
exactly that many bytes. -/
theorem c1_read_string_raw_length (data : List Nat) (pos n : Nat) (last : Option Nat)
    (hn : data[pos]? = some n) (hlen : pos + 1 + n ≤ data.length) :
    read_string ⟨data, pos, 0, last⟩ none =
      .ok ((data.drop (pos + 1)).take n, ⟨data, pos + 1 + n, 0, last⟩) := by
  have hmin : min n (data.length - (pos + 1)) = n := by omega
  simp [read_string, read_byte, read_chars, read_basic, hn, hmin]

/-- C1 witness: the amended theorem at a concrete buffer. -/
theorem c1_read_string_raw_length_witness :
    ([2, 65, 66] : List Nat)[0]? = some 2 ∧ 0 + 1 + 2 ≤ 3 ∧
    read_string ⟨[2, 65, 66], 0, 0, none⟩ none =
      .ok ([65, 66], ⟨[2, 65, 66], 3, 0, none⟩) :=
  ⟨by decide, by decide,
   c1_read_string_raw_length [2, 65, 66] 0 2 none (by decide) (by decide)⟩

/- Claim C5 -/

/-- C5: read_timestamp takes the high 6 bits of its first byte as the most
significant time bits and the low 2 bits as the count of additional bytes,
assembling the result by left-shifting the leading bits and OR-ing in the
trailing byte (count 1), little-endian short (count 2), or short-then-byte
(count 3); the final position shows exactly count extra bytes consumed. -/
theorem c5_read_timestamp (data : List Nat) (pos : Nat) (last : Option Nat) (f : Nat)
    (hf : data[pos]? = some f) :
    (f &&& 3 = 0 →
      read_timestamp ⟨data, pos, 0, last⟩ = .ok (f >>> 2, ⟨data, pos + 1, 0, last⟩)) ∧
    (∀ d1, f &&& 3 = 1 → data[pos + 1]? = some d1 →
      read_timestamp ⟨data, pos, 0, last⟩ =
        .ok (((f >>> 2) <<< 8) ||| d1, ⟨data, pos + 2, 0, last⟩)) ∧
    (∀ d1 d2, f &&& 3 = 2 → data[pos + 1]? = some d1 → data[pos + 2]? = some d2 →
      read_timestamp ⟨data, pos, 0, last⟩ =
        .ok (((f >>> 2) <<< 16) ||| (d1 + 256 * d2), ⟨data, pos + 3, 0, last⟩)) ∧
    (∀ d1 d2 d3, f &&& 3 = 3 → data[pos + 1]? = some d1 → data[pos + 2]? = some d2 →
      data[pos + 3]? = some d3 →
      read_timestamp ⟨data, pos, 0, last⟩ =
        .ok (((f >>> 2) <<< 24) ||| (((d1 + 256 * d2) <<< 8) ||| d3), ⟨data, pos + 4, 0, last⟩)) := by
  refine ⟨?_, ?_, ?_, ?_⟩
  · intro hc
    simp [read_timestamp, read_byte, hf, hc]
  · intro d1 hc hd1
    simp [read_timestamp, read_byte, hf, hc, hd1]
  · intro d1 d2 hc hd1 hd2
    have htake : (data.drop (pos + 1)).take 2 = [d1, d2] := drop_take_two data (pos + 1) d1 d2 hd1 hd2
    have hlen : pos + 2 < data.length := (List.getElem?_eq_some_iff.mp hd2).1
    have hmin : min 2 (data.length - (pos + 1)) = 2 := by omega
    simp [read_timestamp, read_byte, read_short, read_basic, unpackShort, hf, hc, htake, hmin,
          show pos + 1 + 2 = pos + 3 from by omega]
  · intro d1 d2 d3 hc hd1 hd2 hd3
    have htake : (data.drop (pos + 1)).take 2 = [d1, d2] := drop_take_two data (pos + 1) d1 d2 hd1 hd2
    have hlen : pos + 2 < data.length := (List.getElem?_eq_some_iff.mp hd2).1
    have hmin : min 2 (data.length - (pos + 1)) = 2 := by omega
    simp [read_timestamp, read_byte, read_short, read_basic, unpackShort, hf, hc, htake, hmin,
          show pos + 1 + 2 = pos + 3 from by omega, hd3,
          show pos + 3 + 1 = pos + 4 from by omega]

/-- C5 witness: byte 0x04 gives time 1 with no extra byte consumed; first
byte 0x05 (low bits 01) consumes exactly one extra byte. -/
theorem c5_read_timestamp_witness :
    read_timestamp (ofBytes [0x04]) = .ok (1, ⟨[0x04], 1, 0, none⟩) ∧
    read_timestamp (ofBytes [0x05, 0xFF]) = .ok (511, ⟨[0x05, 0xFF], 2, 0, none⟩) :=
  ⟨(c5_read_timestamp [0x04] 0 none 4 (by decide)).1 (by decide),
   (c5_read_timestamp [0x05, 0xFF] 0 none 5 (by decide)).2.1 255 (by decide) (by decide)⟩

/- Claim C6 -/

/-- C6: for all widths w in [1,8] and bit offsets o in [0,8) with w ≤ 8−o and
the relevant byte available (the byte under the cursor when o = 0, the cached
byte otherwise), shift(w) returns the w bits of that byte starting at bit o —
the same value as masking and shifting manually — and leaves the bit offset
at (o+w) mod 8. -/
theorem c6_shift_extracts_bits (b : ReplayBuffer) (w v : Nat)
    (hw1 : 1 ≤ w) (hw8 : w ≤ 8) (ho : b.bit_shift < 8) (hwo : w ≤ 8 - b.bit_shift)
    (hv : if b.bit_shift = 0 then b.data[b.pos]? = some v else b.last_byte = some v) :
    ∃ b2, shift b w = .ok (v / 2 ^ b.bit_shift % 2 ^ w, b2) ∧
      b2.bit_shift = (b.bit_shift + w) % 8 := by
  have hsum : b.bit_shift + w ≤ 8 := by omega
  have h := shift_spec b w v hsum hv
  rw [lo_masks_getD hw8, Nat.shiftRight_eq_div_pow, Nat.and_pow_two_sub_one_eq_mod] at h
  refine ⟨_, h, ?_⟩
  show (if b.bit_shift + w = 8 then 0 else b.bit_shift + w) = (b.bit_shift + w) % 8
  by_cases h8 : b.bit_shift + w = 8
  · simp [h8]
  · have hm : (b.bit_shift + w) % 8 = b.bit_shift + w := Nat.mod_eq_of_lt (by omega)
    simp [h8, hm]

/-- C6 witness: the theorem at offset 3, width 3, cached byte 180. -/
theorem c6_shift_extracts_bits_witness :
    ((1 : Nat) ≤ 3 ∧ (3 : Nat) ≤ 8 ∧ (3 : Nat) < 8 ∧ (3 : Nat) ≤ 8 - 3) ∧
    ∃ b2, shift ⟨[180], 1, 3, some 180⟩ 3 = .ok (180 / 2 ^ 3 % 2 ^ 3, b2) ∧
      b2.bit_shift = (3 + 3) % 8 :=
  ⟨by decide,
   c6_shift_extracts_bits ⟨[180], 1, 3, some 180⟩ 3 180 (by decide) (by decide)
     (by decide) (by decide) (by decide)⟩

/- Helper lemmas: aligned reads -/

/-- The body of `read` with its let bindings expanded; proved by rfl so the
branch structure can be stepped through with plain rewrites. -/
theorem read_unfold (b : ReplayBuffer) (bytes bits : Nat) :
    read b bytes bits =
      (if (bytes + bits / 8) * 8 + bits % 8 = 0 then .ok ([], b)
       else if (bytes + bits / 8) * 8 + bits % 8 ≤ 8 - b.bit_shift then
         match shift b ((bytes + bits / 8) * 8 + bits % 8) with
         | .ok (v, b2) => .ok ([v], b2)
         | .error e => .error e
       else if b.bit_shift = 0 then
         match readAligned b (bytes + bits / 8) with
         | .error e => .error e
         | .ok (base, b2) =>
           if bits % 8 ≠ 0 then
             match shift b2 (bits % 8) with
             | .ok (v, b3) => .ok (base ++ [v], b3)
             | .error e => .error e
           else .ok (base, b2)
       else
         match b.data[b.pos]?, b.last_byte with
         | some next, some prev =>
           match readLoop b.data (load_state b.bit_shift ((b.bit_shift + bits % 8) % 8))
                   b.bit_shift (b.pos + 1)
                   (prev &&& (load_state b.bit_shift ((b.bit_shift + bits % 8) % 8)).hi_mask)
                   next ((bytes + bits / 8) * 8 + bits % 8 - (8 - b.bit_shift)) [] with
           | .ok (raw, pos2, next2) =>
             .ok (raw, { b with pos := pos2, bit_shift := (b.bit_shift + bits % 8) % 8,
                                last_byte := some next2 })
           | .error e => .error e
         | _, _ => .error .eof) := rfl

theorem readAligned_of_le (b : ReplayBuffer) (n : Nat) (h : b.pos + n ≤ b.data.length) :
    readAligned b n = .ok ((b.data.drop b.pos).take n, { b with pos := b.pos + n }) := by
  induction n generalizing b with
  | zero => simp [readAligned]
  | succ n ih =>
    have hlt : b.pos < b.data.length := by omega
    have hv : b.data[b.pos]? = some b.data[b.pos] := List.getElem?_eq_getElem hlt
    have ih2 := ih { b with pos := b.pos + 1 } (show b.pos + 1 + n ≤ b.data.length from by omega)
    have harith : b.pos + 1 + n = b.pos + (n + 1) := by omega
    rw [readAligned, hv, ih2, harith, List.drop_eq_getElem_cons hlt, List.take_succ_cons]

theorem readAligned_err (b : ReplayBuffer) (n : Nat) (h1 : 1 ≤ n)
    (h : b.data.length < b.pos + n) :
    readAligned b n = .error .eof := by
  induction n generalizing b with
  | zero => omega
  | succ n ih =>
    cases hv : b.data[b.pos]? with
    | none => rw [readAligned, hv]
    | some v =>
      have hlt : b.pos < b.data.length := (List.getElem?_eq_some_iff.mp hv).1
      have hn : 1 ≤ n := by omega
      have ih2 := ih { b with pos := b.pos + 1 } hn
        (show b.data.length < b.pos + 1 + n from by omega)
      rw [readAligned, hv, ih2]

theorem shift_ok_exists (b : ReplayBuffer) (bits : Nat) (hbs : b.bit_shift = 0)
    (hpos : b.pos < b.data.length) (hbits : bits ≤ 8) :
    ∃ v b2, shift b bits = .ok (v, b2) ∧ b2.data = b.data ∧ b2.pos = b.pos + 1 ∧
      b2.bit_shift = (if bits = 8 then 0 else bits) := by
  have hv : b.data[b.pos]? = some b.data[b.pos] := List.getElem?_eq_getElem hpos
  have hs := shift_spec b bits b.data[b.pos] (by omega) (by simp [hbs, hv])
  simp only [hbs, if_true, reduceIte, Nat.zero_add] at hs
  exact ⟨_, _, hs, rfl, rfl, rfl⟩

theorem read_aligned_ok (b : ReplayBuffer) (bytes bits : Nat)
    (hbs : b.bit_shift = 0)
    (hlen : b.pos + ((bytes + bits / 8) + (if bits % 8 = 0 then 0 else 1)) ≤ b.data.length) :
    ∃ l b2, read b bytes bits = .ok (l, b2) := by
  rw [read_unfold]
  by_cases h0 : (bytes + bits / 8) * 8 + bits % 8 = 0
  · rw [if_pos h0]
    exact ⟨[], b, rfl⟩
  rw [if_neg h0]
  have hk1 : 1 ≤ (bytes + bits / 8) + (if bits % 8 = 0 then 0 else 1) := by
    by_cases hz : bits % 8 = 0 <;> simp [hz] <;> omega
  have hpos : b.pos < b.data.length := by omega
  by_cases hsm : (bytes + bits / 8) * 8 + bits % 8 ≤ 8
  · have hsm2 : (bytes + bits / 8) * 8 + bits % 8 ≤ 8 - b.bit_shift := by
      rw [hbs]
      exact hsm
    rw [if_pos hsm2]
    obtain ⟨v, b2, hs, _, _, _⟩ :=
      shift_ok_exists b ((bytes + bits / 8) * 8 + bits % 8) hbs hpos (by omega)
    rw [hs]
    exact ⟨[v], b2, rfl⟩
  · have hsm2 : ¬ ((bytes + bits / 8) * 8 + bits % 8 ≤ 8 - b.bit_shift) := by
      rw [hbs]
      exact hsm
    rw [if_neg hsm2, if_pos hbs]
    have hbytes : b.pos + (bytes + bits / 8) ≤ b.data.length := by
      by_cases hz : bits % 8 = 0 <;> simp [hz] at hlen <;> omega
    rw [readAligned_of_le b (bytes + bits / 8) hbytes]
    dsimp only
    by_cases hz : bits % 8 = 0
    · rw [if_neg (show ¬ (bits % 8 ≠ 0) from by simp [hz])]
      exact ⟨_, _, rfl⟩
    · rw [if_pos (show bits % 8 ≠ 0 from hz)]
      have hpos2 : b.pos + (bytes + bits / 8) < b.data.length := by
        simp [hz] at hlen
        omega
      obtain ⟨v, b3, hs, _, _, _⟩ :=
        shift_ok_exists { b with pos := b.pos + (bytes + bits / 8) } (bits % 8) hbs
          (by simpa using hpos2) (by omega)
      rw [hs]
      exact ⟨_, _, rfl⟩

/- Helper lemmas: _make_mask length -/

theorem _make_mask_length_aux (byte n : Nat) :
    ∀ d cur, n - cur = d → cur ≤ n → (_make_mask byte n cur).length = n - cur + 1 := by
  intro d
  induction d with
  | zero =>
    intro cur hd hle
    have hnl : ¬ cur < n := by omega
    rw [_make_mask]
    simp [hnl]
    omega
  | succ d ih =>
    intro cur hd hle
    have hlt : cur < n := by omega
    rw [_make_mask]
    simp [hlt, ih (cur + 1) (by omega) (by omega)]
    omega

theorem _make_mask_len (byte n : Nat) (h : 1 ≤ n) : (_make_mask byte n 1).length = n := by
  have := _make_mask_length_aux byte n (n - 1) 1 (by omega) (by omega)
  omega

/- Claim C4 -/

/-- C4 counterexample: a zero length byte does not give the empty sequence —
the source _make_mask always emits at least one boolean, so length byte 0x00
decodes to the 1-element sequence [false]. -/
theorem c4_counterexample :
    read_bitmask (ofBytes [0x00]) = .ok ([false], ⟨[0x00], 1, 0, none⟩) ∧
    ¬ ([false] : List Bool).length = 0 := by
  refine ⟨?_, by decide⟩
  simp [read_bitmask, read_byte, read, ofBytes, _make_mask]

/-- C4 (amended): for every leading length byte n ≥ 1 followed by enough data
bits, read_bitmask returns an ordered sequence of exactly n booleans (for
n = 0 the source returns the 1-element sequence [false] instead of an empty
one); in particular length byte 0x08 followed by one data byte 0b10010011
decodes to the 8-element boolean sequence matching that bit pattern with
index 0 corresponding to the first bit read (the least significant bit). -/
theorem c4_read_bitmask_length (data : List Nat) (pos n : Nat) (last : Option Nat)
    (hn : data[pos]? = some n) (h1 : 1 ≤ n)
    (hlen : pos + 1 + (n / 8 + (if n % 8 = 0 then 0 else 1)) ≤ data.length) :
    (∃ l b2, read_bitmask ⟨data, pos, 0, last⟩ = .ok (l, b2) ∧ l.length = n) ∧
    read_bitmask (ofBytes [0x08, 0x93]) =
      .ok ([true, true, false, false, true, false, false, true],
           ⟨[0x08, 0x93], 2, 0, some 0x93⟩) := by
  constructor
  · have hlen2 : pos + 1 + ((0 + n / 8) + (if n % 8 = 0 then 0 else 1)) ≤ data.length := by
      by_cases hz : n % 8 = 0 <;> simp [hz] at hlen ⊢ <;> omega
    obtain ⟨l0, b2, hread⟩ := read_aligned_ok ⟨data, pos + 1, 0, last⟩ 0 n rfl hlen2
    have hres : read_bitmask ⟨data, pos, 0, last⟩ =
        .ok ((_make_mask (l0.reverse.foldl (fun m byte => (m <<< 8) ||| byte) 0) n 1).reverse,
             b2) := by
      simp [read_bitmask, read_byte, hn, hread]
    exact ⟨_, b2, hres, by simp [_make_mask_len _ _ h1]⟩
  · simp [read_bitmask, read_byte, read, shift, read_basic, _make_mask, lo_masks, ofBytes]
    decide

/-- C4 witness: the amended theorem at length byte 3 with one data byte. -/
theorem c4_read_bitmask_length_witness :
    (([3, 5] : List Nat)[0]? = some 3 ∧ 1 ≤ 3 ∧
      0 + 1 + (3 / 8 + (if 3 % 8 = 0 then 0 else 1)) ≤ ([3, 5] : List Nat).length) ∧
    ((∃ l b2, read_bitmask ⟨[3, 5], 0, 0, none⟩ = .ok (l, b2) ∧ l.length = 3) ∧
     read_bitmask (ofBytes [0x08, 0x93]) =
       .ok ([true, true, false, false, true, false, false, true],
            ⟨[0x08, 0x93], 2, 0, some 0x93⟩)) :=
  ⟨⟨by decide, by decide, by decide⟩,
   c4_read_bitmask_length [3, 5] 0 3 none (by decide) (by decide) (by decide)⟩

/- Claim C9 -/

/-- C9 counterexample: the "only if" direction of the claim fails.  The first
tag byte 0x04 is in the known set and the five input bytes are decoded, yet
read_data_struct raises the unrecognized-tag error — the nested element tag
0x03 is unknown. -/
theorem c9_counterexample :
    read_data_struct (ofBytes [0x04, 1, 0, 2, 0x03]) = .error (.unknownTag 3) ∧
    (0x04 : Nat) ∈ knownTags :=
  ⟨rfl, by decide⟩

/-- C9 (amended): read_data_struct raises the unrecognized-tag error whenever
the first tag byte is outside the known set {0x02,0x04,0x05,0x06,0x07,0x09}
(the converse does not hold for nested values: a known outer tag can still
surface an unrecognized-tag error raised for an inner tag); for tags in the
set, given well-formed input, the corresponding variant of the tag table is
returned — in particular tag 0x06 followed by byte 0x2A decodes to the
integer 42 and tag 0x02 followed by count byte 0x08 and 4 bytes decodes to
the corresponding 4-character string. -/
theorem c9_read_data_struct_tags (data : List Nat) (pos t : Nat) (last : Option Nat)
    (ht : data[pos]? = some t) (hnot : ¬ t ∈ knownTags) :
    read_data_struct ⟨data, pos, 0, last⟩ = .error (.unknownTag t) ∧
    (read_data_struct (ofBytes [0x06, 0x2A]) = .ok (.int 42, ⟨[0x06, 0x2A], 2, 0, none⟩) ∧
     read_data_struct (ofBytes [0x02, 0x08, 97, 98, 99, 100]) =
       .ok (.str [97, 98, 99, 100], ⟨[0x02, 0x08, 97, 98, 99, 100], 6, 0, none⟩) ∧
     read_data_struct (ofBytes [0x04, 1, 0, 2, 0x06, 7]) =
       .ok (.list [.int 7], ⟨[0x04, 1, 0, 2, 0x06, 7], 6, 0, none⟩) ∧
     read_data_struct (ofBytes [0x05, 2, 4, 0x06, 9]) =
       .ok (.map [(2, .int 9)], ⟨[0x05, 2, 4, 0x06, 9], 5, 0, none⟩) ∧
     read_data_struct (ofBytes [0x07, 1, 0, 0, 0]) =
       .ok (.int 1, ⟨[0x07, 1, 0, 0, 0], 5, 0, none⟩) ∧
     read_data_struct (ofBytes [0x09, 0x02]) = .ok (.int 1, ⟨[0x09, 0x02], 2, 0, none⟩)) := by
  simp only [knownTags, List.mem_cons, List.not_mem_nil, or_false] at hnot
  push_neg at hnot
  obtain ⟨h2, h4, h5, h6, h7, h9⟩ := hnot
  refine ⟨?_, rfl, rfl, rfl, rfl, rfl, rfl⟩
  rw [read_data_struct]
  show read_data_structF (2 * data.length + 4) ⟨data, pos, 0, last⟩ =
    .error (.unknownTag t)
  have hfuel : 2 * data.length + 4 = (2 * data.length + 3) + 1 := by omega
  rw [hfuel, read_data_structF]
  simp [read_byte, ht, h2, h4, h5, h6, h7, h9]

/-- C9 witness: the tag-error direction of the amended theorem at the
unknown tag 0x0A. -/
theorem c9_read_data_struct_tags_witness :
    (([0x0A] : List Nat)[0]? = some 0x0A ∧ ¬ (0x0A : Nat) ∈ knownTags) ∧
    read_data_struct ⟨[0x0A], 0, 0, none⟩ = .error (.unknownTag 0x0A) :=
  ⟨⟨by decide, by decide⟩,
   (c9_read_data_struct_tags [0x0A] 0 0x0A none (by decide) (by decide)).1⟩

/- Helper lemmas: bit arithmetic and the variable-length integer loop -/

theorem read_byte_aligned (b : ReplayBuffer) (v : Nat) (hbs : b.bit_shift = 0)
    (hv : b.data[b.pos]? = some v) :
    read_byte b = .ok (v, { b with pos := b.pos + 1 }) := by
  simp [read_byte, hbs, hv]

theorem shiftLeft_lor_eq_add (b a k : Nat) (h : a < 2 ^ k) :
    (b <<< k) ||| a = b * 2 ^ k + a := by
  rw [Nat.shiftLeft_eq, Nat.mul_comm b (2 ^ k)]
  exact (Nat.mul_add_lt_is_or h b).symm

theorem and_127_eq (v : Nat) : v &&& 0x7F = v % 128 :=
  Nat.and_pow_two_sub_one_eq_mod v 7

theorem and_128_eq_zero {v : Nat} (h : v < 128) : v &&& 0x80 = 0 := by
  have h7 : v.testBit 7 = false := Nat.testBit_lt_two_pow h
  calc v &&& 0x80 = v &&& 2 ^ 7 := rfl
  _ = (v.testBit 7).toNat * 2 ^ 7 := Nat.and_two_pow v 7
  _ = 0 := by rw [h7]; rfl

theorem add_128_and_128 (a : Nat) (h : a < 128) : (a + 128) &&& 0x80 = 128 := by
  have h7 : (a + 128).testBit 7 = true := by
    have hb := Nat.testBit_two_pow_add_eq a 7
    rw [Nat.testBit_lt_two_pow h] at hb
    simpa [Nat.add_comm] using hb
  calc (a + 128) &&& 0x80 = (a + 128) &&& 2 ^ 7 := rfl
  _ = ((a + 128).testBit 7).toNat * 2 ^ 7 := Nat.and_two_pow _ 7
  _ = 128 := by rw [h7]; rfl

theorem readVarIntLoop_stop (b : ReplayBuffer) (byte shiftC value fuel : Nat)
    (hb : byte &&& 0x80 = 0) (hf : 1 ≤ fuel) :
    readVarIntLoop b byte shiftC value fuel = .ok (value, b) := by
  obtain ⟨g, rfl⟩ : ∃ g, fuel = g + 1 := ⟨fuel - 1, by omega⟩
  rw [readVarIntLoop, if_neg (by simp [hb])]

theorem readVarIntLoop_encode (v : Nat) :
    ∀ (shiftC acc prev : Nat) (b : ReplayBuffer) (rest : List Nat) (fuel : Nat),
      b.bit_shift = 0 →
      b.data.drop b.pos = encodeVarIntNat v ++ rest →
      acc < 2 ^ (shiftC * 7) →
      prev &&& 0x80 ≠ 0 →
      (encodeVarIntNat v).length + 1 ≤ fuel →
      readVarIntLoop b prev shiftC acc fuel =
        .ok (acc + v * 2 ^ (shiftC * 7),
             { b with pos := b.pos + (encodeVarIntNat v).length }) := by
  induction v using Nat.strong_induction_on with
  | _ v ih =>
    intro shiftC acc prev b rest fuel hbs hdrop hacc hprev hfuel
    by_cases hv : v < 128
    · rw [encodeVarIntNat, if_pos hv] at hdrop hfuel ⊢
      have hhead : b.data[b.pos]? = some v := by
        have h0 := List.getElem?_drop b.data b.pos 0
        rw [hdrop] at h0
        simpa using h0.symm
      obtain ⟨f, hf1, rfl⟩ : ∃ f, 1 ≤ f ∧ fuel = f + 1 := by
        refine ⟨fuel - 1, ?_, ?_⟩ <;> simp at hfuel <;> omega
      rw [readVarIntLoop, if_pos hprev, read_byte_aligned b v hbs hhead]
      dsimp only
      have hval : ((v &&& 0x7F) <<< (shiftC * 7)) ||| acc = acc + v * 2 ^ (shiftC * 7) := by
        rw [and_127_eq, Nat.mod_eq_of_lt hv, shiftLeft_lor_eq_add v acc (shiftC * 7) hacc]
        omega
      rw [hval, readVarIntLoop_stop _ _ _ _ _ (and_128_eq_zero hv) hf1]
      simp
    · push_neg at hv
      rw [encodeVarIntNat, if_neg (by omega)] at hdrop hfuel ⊢
      have hhead : b.data[b.pos]? = some (v % 128 + 128) := by
        have h0 := List.getElem?_drop b.data b.pos 0
        rw [hdrop] at h0
        simpa using h0.symm
      have hdrop2 : b.data.drop (b.pos + 1) = encodeVarIntNat (v / 128) ++ rest := by
        have ht := List.tail_drop b.data b.pos
        rw [hdrop] at ht
        simpa using ht.symm
      obtain ⟨f, hf1, rfl⟩ : ∃ f, (encodeVarIntNat (v / 128)).length + 1 ≤ f ∧ fuel = f + 1 := by
        refine ⟨fuel - 1, ?_, ?_⟩ <;> simp at hfuel <;> omega
      rw [readVarIntLoop, if_pos hprev, read_byte_aligned b _ hbs hhead]
      dsimp only
      have hmod : v % 128 < 128 := Nat.mod_lt _ (by omega)
      have hacc2 : (((v % 128 + 128) &&& 0x7F) <<< (shiftC * 7)) ||| acc =
          (v % 128) * 2 ^ (shiftC * 7) + acc := by
        rw [and_127_eq, show (v % 128 + 128) % 128 = v % 128 from by omega]
        exact shiftLeft_lor_eq_add _ acc _ hacc
      rw [hacc2]
      have hbound : (v % 128) * 2 ^ (shiftC * 7) + acc < 2 ^ ((shiftC + 1) * 7) := by
        have h2 : (2 : Nat) ^ ((shiftC + 1) * 7) = 128 * 2 ^ (shiftC * 7) := by
          rw [show (shiftC + 1) * 7 = 7 + shiftC * 7 from by ring, pow_add]
          norm_num
        rw [h2]
        have h3 : (v % 128) * 2 ^ (shiftC * 7) ≤ 127 * 2 ^ (shiftC * 7) :=
          Nat.mul_le_mul_right _ (by omega)
        omega
      have hcont : (v % 128 + 128) &&& 0x80 ≠ 0 := by
        rw [add_128_and_128 _ hmod]
        omega
      rw [ih (v / 128) (Nat.div_lt_self (by omega) (by omega)) (shiftC + 1)
            ((v % 128) * 2 ^ (shiftC * 7) + acc) (v % 128 + 128)
            { b with pos := b.pos + 1 } rest f hbs hdrop2 hbound hcont hf1]
      have hval : (v % 128) * 2 ^ (shiftC * 7) + acc + (v / 128) * 2 ^ ((shiftC + 1) * 7) =
          acc + v * 2 ^ (shiftC * 7) := by
        have h2 : (2 : Nat) ^ ((shiftC + 1) * 7) = 2 ^ (shiftC * 7) * 128 := by
          rw [show (shiftC + 1) * 7 = shiftC * 7 + 7 from by ring, pow_add]
          norm_num
        rw [h2]
        have hdm : v % 128 + 128 * (v / 128) = v := Nat.mod_add_div v 128
        calc (v % 128) * 2 ^ (shiftC * 7) + acc + (v / 128) * (2 ^ (shiftC * 7) * 128)
            = acc + (v % 128 + 128 * (v / 128)) * 2 ^ (shiftC * 7) := by ring
        _ = acc + v * 2 ^ (shiftC * 7) := by rw [hdm]
      rw [hval]
      have harith : b.pos + 1 + (encodeVarIntNat (v / 128)).length =
          b.pos + ((v % 128 + 128) :: encodeVarIntNat (v / 128)).length := by
        simp
        omega
      simp [harith]

theorem varint_final (n : Int) :
    (if ((2 * n.natAbs + if n < 0 then 1 else 0) &&& 0x1) = 1 then (-1 : Int) else 1) *
      (((2 * n.natAbs + if n < 0 then 1 else 0) >>> 1 : Nat) : Int) = n := by
  by_cases hn : n < 0
  · rw [if_pos hn]
    have h1 : (2 * n.natAbs + 1) &&& 0x1 = 1 := by
      rw [Nat.and_one_is_mod]
      omega
    have h2 : (2 * n.natAbs + 1) >>> 1 = n.natAbs := by
      rw [Nat.shiftRight_eq_div_pow, pow_one]
      omega
    rw [h1, h2, if_pos rfl]
    have habs := Int.ofNat_natAbs_of_nonpos (Int.le_of_lt hn)
    omega
  · rw [if_neg hn]
    have h1 : (2 * n.natAbs + 0) &&& 0x1 = 0 := by
      rw [Nat.and_one_is_mod]
      omega
    have h2 : (2 * n.natAbs + 0) >>> 1 = n.natAbs := by
      rw [Nat.shiftRight_eq_div_pow, pow_one]
      omega
    rw [h1, h2, if_neg (by omega)]
    have habs := Int.natAbs_of_nonneg (Int.not_lt.mp hn)
    omega

/- Claim C8 -/

/-- C8: for every integer n (so in particular every n in −1000000..1000000),
decoding the base-128 continuation-flagged encoding of n (low 7 bits per
group, LSB-first group order, continuation flag in bit 7, sign flag in bit 0
of the reassembled value, magnitude in the remaining bits) with
read_variable_int reproduces n exactly; encode(0) decodes to 0 and
encode(−1)/encode(1) decode to −1/1 as instances; and decoding stops at the
first byte whose continuation flag is clear — the final position equals the
encoding length no matter what bytes follow. -/
theorem c8_varint_roundtrip (n : Int) (rest : List Nat) (last : Option Nat) :
    read_variable_int ⟨encodeVarInt n ++ rest, 0, 0, last⟩ =
      .ok (n, ⟨encodeVarInt n ++ rest, (encodeVarInt n).length, 0, last⟩) := by
  rw [read_variable_int, encodeVarInt]
  set v := 2 * n.natAbs + if n < 0 then 1 else 0 with hvdef
  by_cases hv : v < 128
  · have henc : encodeVarIntNat v = [v] := by rw [encodeVarIntNat, if_pos hv]
    rw [henc]
    have hhead : ((([v] ++ rest : List Nat)) : List Nat)[(0 : Nat)]? = some v := by simp
    rw [read_byte_aligned ⟨[v] ++ rest, 0, 0, last⟩ v rfl hhead]
    dsimp only
    rw [readVarIntLoop_stop _ _ _ _ _ (and_128_eq_zero hv) (by simp)]
    dsimp only
    rw [and_127_eq, Nat.mod_eq_of_lt hv, hvdef, varint_final n]
    simp
  · push_neg at hv
    have henc : encodeVarIntNat v = (v % 128 + 128) :: encodeVarIntNat (v / 128) := by
      rw [encodeVarIntNat, if_neg (by omega)]
    rw [henc]
    have hhead : (((v % 128 + 128) :: encodeVarIntNat (v / 128) ++ rest :
        List Nat))[(0 : Nat)]? = some (v % 128 + 128) := by simp
    rw [read_byte_aligned _ _ rfl hhead]
    dsimp only
    have hacc : (v % 128 + 128) &&& 0x7F = v % 128 := by
      rw [and_127_eq]
      omega
    rw [hacc]
    have hdrop2 : (((v % 128 + 128) :: encodeVarIntNat (v / 128) ++ rest :
        List Nat)).drop (0 + 1) = encodeVarIntNat (v / 128) ++ rest := by simp
    have hmod : v % 128 < 128 := Nat.mod_lt _ (by omega)
    have hcont : (v % 128 + 128) &&& 0x80 ≠ 0 := by
      rw [add_128_and_128 _ hmod]
      omega
    have hval : v % 128 + (v / 128) * 2 ^ (1 * 7) = v := by
      have hdm : v % 128 + 128 * (v / 128) = v := Nat.mod_add_div v 128
      have h7 : (2 : Nat) ^ (1 * 7) = 128 := by norm_num
      rw [h7]
      omega
    rw [readVarIntLoop_encode (v / 128) 1 (v % 128) (v % 128 + 128) _ rest _ rfl hdrop2
          (by simpa using hmod) hcont (by simp; omega)]
    dsimp only
    rw [hval, hvdef, varint_final n]
    simp
    omega

/- Helper lemmas: state characterization of the core reads -/

theorem shift_state (b : ReplayBuffer) (w v : Nat) (b2 : ReplayBuffer)
    (h : shift b w = .ok (v, b2)) :
    b2.data = b.data ∧
    b2.bit_shift = (if b.bit_shift + w = 8 then 0 else b.bit_shift + w) ∧
    b.bit_shift + w ≤ 8 ∧
    (b.bit_shift = 0 → ∃ u, b.data[b.pos]? = some u ∧
      b2.pos = b.pos + 1 ∧ b2.last_byte = some u) ∧
    (b.bit_shift ≠ 0 → b2.pos = b.pos ∧ b2.last_byte = b.last_byte) := by
  unfold shift at h
  by_cases h8 : b.bit_shift + w ≤ 8
  · rw [if_pos h8] at h
    by_cases h0 : b.bit_shift = 0
    · rw [if_pos h0] at h
      rcases hv : b.data[b.pos]? with _ | u
      · rw [hv] at h
        exact absurd h (by simp)
      · rw [hv] at h
        simp only [Except.ok.injEq, Prod.mk.injEq] at h
        obtain ⟨hval, hb2⟩ := h
        subst hb2
        refine ⟨rfl, rfl, h8, fun _ => ⟨u, rfl, rfl, rfl⟩, fun hc => absurd h0 hc⟩
    · rw [if_neg h0] at h
      rcases hl : b.last_byte with _ | u
      · rw [hl] at h
        exact absurd h (by simp)
      · rw [hl] at h
        simp only [Except.ok.injEq, Prod.mk.injEq] at h
        obtain ⟨hval, hb2⟩ := h
        subst hb2
        exact ⟨rfl, rfl, h8, fun hc => absurd hc h0, fun _ => ⟨rfl, rfl⟩⟩
  · rw [if_neg h8] at h
    exact absurd h (by simp)

theorem readAligned_ok_state (n : Nat) :
    ∀ (b : ReplayBuffer) (l : List Nat) (b2 : ReplayBuffer),
      readAligned b n = .ok (l, b2) →
      b2 = { b with pos := b.pos + n } ∧ (1 ≤ n → b.pos + n ≤ b.data.length) := by
  induction n with
  | zero =>
    intro b l b2 h
    rw [readAligned] at h
    simp only [Except.ok.injEq, Prod.mk.injEq] at h
    obtain ⟨_, hb2⟩ := h
    subst hb2
    exact ⟨rfl, fun h1 => by omega⟩
  | succ n ih =>
    intro b l b2 h
    rw [readAligned] at h
    rcases hv : b.data[b.pos]? with _ | u
    · rw [hv] at h
      exact absurd h (by simp)
    · rw [hv] at h
      rcases hra : readAligned { b with pos := b.pos + 1 } n with e | ⟨rest, bb⟩
      · rw [hra] at h
        exact absurd h (by simp)
      · rw [hra] at h
        simp only [Except.ok.injEq, Prod.mk.injEq] at h
        obtain ⟨_, hb2⟩ := h
        subst hb2
        obtain ⟨hbb, hlen⟩ := ih _ _ _ hra
        have hpp : b.pos + 1 + n = b.pos + (n + 1) := by omega
        constructor
        · rw [hbb]
          simp [hpp]
        · intro h1
          have hv2 : b.pos < b.data.length := (List.getElem?_eq_some_iff.mp hv).1
          rcases Nat.eq_zero_or_pos n with hn0 | hn1
          · omega
          · have := hlen hn1
            simp at this
            omega

theorem readLoop_state (data : List Nat) (st : ReadState) (old : Nat) (bitCount : Nat) :
    ∀ (pos first next : Nat) (acc out : List Nat) (pos2 next2 : Nat),
      readLoop data st old pos first next bitCount acc = .ok (out, pos2, next2) →
      data[pos - 1]? = some next →
      1 ≤ pos →
      data[pos2 - 1]? = some next2 ∧ 1 ≤ pos2 ∧ pos2 ≤ data.length ∧ pos ≤ pos2 := by
  induction bitCount using Nat.strong_induction_on with
  | _ bitCount ih =>
    intro pos first next acc out pos2 next2 h hnext hpos
    rw [readLoop] at h
    split_ifs at h with h0 h8 ha1 ha2
    · simp only [Except.ok.injEq, Prod.mk.injEq] at h
      obtain ⟨_, hp, hn⟩ := h
      subst hp
      subst hn
      have : pos - 1 < data.length := (List.getElem?_eq_some_iff.mp hnext).1
      exact ⟨hnext, hpos, by omega, Nat.le_refl _⟩
    · simp only [Except.ok.injEq, Prod.mk.injEq] at h
      obtain ⟨_, hp, hn⟩ := h
      subst hp
      subst hn
      have : pos - 1 < data.length := (List.getElem?_eq_some_iff.mp hnext).1
      exact ⟨hnext, hpos, by omega, Nat.le_refl _⟩
    · simp only [Except.ok.injEq, Prod.mk.injEq] at h
      obtain ⟨_, hp, hn⟩ := h
      subst hp
      subst hn
      have : pos - 1 < data.length := (List.getElem?_eq_some_iff.mp hnext).1
      exact ⟨hnext, hpos, by omega, Nat.le_refl _⟩
    · simp only [Except.ok.injEq, Prod.mk.injEq] at h
      obtain ⟨_, hp, hn⟩ := h
      subst hp
      subst hn
      have : pos - 1 < data.length := (List.getElem?_eq_some_iff.mp hnext).1
      exact ⟨hnext, hpos, by omega, Nat.le_refl _⟩
    · rcases hv : data[pos]? with _ | nx
      · rw [hv] at h
        exact absurd h (by simp)
      · rw [hv] at h
        have hrec := ih (bitCount - 8) (by omega) (pos + 1) _ nx _ out pos2 next2 h
          (by simpa using hv) (by omega)
        exact ⟨hrec.1, hrec.2.1, hrec.2.2.1, by omega⟩

theorem seek_set_unfold (b : ReplayBuffer) (p : Int) :
    seek b p .set =
      (if p < 0 then .error .ioError
       else if p.toNat ≠ 0 ∧ b.bit_shift ≠ 0 then
         match b.data[p.toNat - 1]? with
         | some v => .ok ⟨b.data, p.toNat, b.bit_shift, some v⟩
         | none => .error .typeError
       else .ok ⟨b.data, p.toNat, b.bit_shift, b.last_byte⟩) := rfl

theorem seek_set_ok (b : ReplayBuffer) (p : Int) (b2 : ReplayBuffer)
    (h : seek b p .set = .ok b2) :
    b2.data = b.data ∧ b2.bit_shift = b.bit_shift ∧ b2.pos = p.toNat := by
  rw [seek_set_unfold] at h
  by_cases h1 : p < 0
  · rw [if_pos h1] at h
    exact absurd h (by simp)
  rw [if_neg h1] at h
  by_cases h2 : p.toNat ≠ 0 ∧ b.bit_shift ≠ 0
  · rw [if_pos h2] at h
    rcases hv : b.data[p.toNat - 1]? with _ | u <;> rw [hv] at h
    · exact absurd h (by simp)
    · simp only [Except.ok.injEq] at h
      subst h
      exact ⟨rfl, rfl, rfl⟩
  · rw [if_neg h2] at h
    simp only [Except.ok.injEq] at h
    subst h
    exact ⟨rfl, rfl, rfl⟩

/-- The state effect of a successful `read` on the parts C10 needs: the data
and (for a bit offset below 8) the bit offset are unchanged when bits = 0. -/
theorem read_ok_bits_zero_state (b : ReplayBuffer) (n : Nat) (l : List Nat)
    (b1 : ReplayBuffer) (hbs : b.bit_shift < 8) (h : read b n 0 = .ok (l, b1)) :
    b1.data = b.data ∧ b1.bit_shift = b.bit_shift ∧
    (1 ≤ n → b.pos < b.data.length) := by
  rw [read_unfold] at h
  simp only [Nat.zero_div, Nat.add_zero, Nat.zero_mod, ne_eq, not_true_eq_false,
    if_false] at h
  split_ifs at h with h0 hsm hb0
  · simp only [Except.ok.injEq, Prod.mk.injEq] at h
    obtain ⟨_, hb1⟩ := h
    subst hb1
    exact ⟨rfl, rfl, fun h1 => absurd h0 (by omega)⟩
  · rcases hs : shift b (n * 8) with e | ⟨v, bb⟩
    · rw [hs] at h
      exact absurd h (by simp)
    · rw [hs] at h
      simp only [Except.ok.injEq, Prod.mk.injEq] at h
      obtain ⟨_, hb1⟩ := h
      subst hb1
      obtain ⟨hd, hbs2, hle, hz, _⟩ := shift_state b (n * 8) v bb hs
      have hbz : b.bit_shift = 0 := by omega
      obtain ⟨u, hu, hp, _⟩ := hz hbz
      refine ⟨hd, ?_, fun _ => (List.getElem?_eq_some_iff.mp hu).1⟩
      rw [hbs2, hbz]
      have hn8 : n * 8 = 8 := by omega
      simp [hn8]
  · rcases hra : readAligned b n with e | ⟨base, bb⟩
    · rw [hra] at h
      exact absurd h (by simp)
    · rw [hra] at h
      simp only [Except.ok.injEq, Prod.mk.injEq] at h
      obtain ⟨_, hb1⟩ := h
      subst hb1
      obtain ⟨hbb, hlen⟩ := readAligned_ok_state n b base bb hra
      subst hbb
      refine ⟨rfl, rfl, fun h1 => ?_⟩
      have := hlen h1
      omega
  · rcases hv : b.data[b.pos]? with _ | next
    · rw [hv] at h
      exact absurd h (by simp)
    · rcases hl : b.last_byte with _ | prev
      · rw [hv, hl] at h
        exact absurd h (by simp)
      · rw [hv, hl] at h
        dsimp only at h
        rcases hloop : readLoop b.data (load_state b.bit_shift (b.bit_shift % 8))
            b.bit_shift (b.pos + 1)
            (prev &&& (load_state b.bit_shift (b.bit_shift % 8)).hi_mask)
            next (n * 8 - (8 - b.bit_shift)) [] with e | ⟨raw, pos2, next2⟩
        · rw [hloop] at h
          exact absurd h (by simp)
        · rw [hloop] at h
          simp only [Except.ok.injEq, Prod.mk.injEq] at h
          obtain ⟨_, hb1⟩ := h
          subst hb1
          refine ⟨rfl, ?_, fun _ => (List.getElem?_eq_some_iff.mp hv).1⟩
          simp [Nat.mod_eq_of_lt hbs]

/- Claim C10 -/

/-- C10: for every n and every reachable cursor state (bit offset in [0,8)),
a peek(n) call that returns restores the cursor state exactly: the state
after the call is equal to the state before it, so every subsequent tell()
or read returns exactly the value it would have returned had peek(n) not
been called. -/
theorem c10_peek_restores_state (b : ReplayBuffer) (n : Nat) (r : List Nat)
    (b2 : ReplayBuffer) (hbs : b.bit_shift < 8) (h : peek b n = .ok (r, b2)) :
    b2 = b ∧ tell b2 = tell b ∧
    (∀ bytes bits, read b2 bytes bits = read b bytes bits) := by
  have key : b2 = b := by
    unfold peek read_hex at h
    rcases hc : read_chars b n with e | ⟨chars, b1⟩
    · rw [hc] at h
      exact absurd h (by simp)
    rw [hc] at h
    dsimp only [cursor] at h
    rcases hseek : seek b1 (b.pos : Int) .set with e | b1s
    · rw [hseek] at h
      exact absurd h (by simp)
    rw [hseek] at h
    simp only [Except.ok.injEq, Prod.mk.injEq] at h
    obtain ⟨_, hb2⟩ := h
    subst hb2
    obtain ⟨hd1, hbs1⟩ : b1.data = b.data ∧ b1.bit_shift = b.bit_shift := by
      by_cases h0 : b.bit_shift = 0
      · rw [read_chars, if_pos h0] at hc
        simp only [read_basic, Except.ok.injEq, Prod.mk.injEq] at hc
        obtain ⟨_, hb1⟩ := hc
        subst hb1
        exact ⟨rfl, rfl⟩
      · rw [read_chars, if_neg h0] at hc
        have hr := read_ok_bits_zero_state b n chars b1 hbs hc
        exact ⟨hr.1, hr.2.1⟩
    obtain ⟨hd, hbs2, hp⟩ := seek_set_ok b1 (b.pos : Int) b1s hseek
    have : b1s = ⟨b.data, b.pos, b.bit_shift, b1s.last_byte⟩ := by
      cases b1s
      simp only at hd hbs2 hp ⊢
      rw [hd, hd1, hbs2, hbs1, hp]
      simp
    rw [this]
  refine ⟨key, by rw [key], fun bytes bits => by rw [key]⟩

/-- C10 witness: a concrete peek at bit offset 0. -/
theorem c10_peek_restores_state_witness :
    ((0 : Nat) < 8 ∧ peek (ofBytes [1, 2, 3]) 2 =
      .ok ([48, 49, 48, 50], ofBytes [1, 2, 3])) ∧
    (ofBytes [1, 2, 3] = ofBytes [1, 2, 3] ∧
     tell (ofBytes [1, 2, 3]) = tell (ofBytes [1, 2, 3]) ∧
     (∀ bytes bits, read (ofBytes [1, 2, 3]) bytes bits =
        read (ofBytes [1, 2, 3]) bytes bits)) :=
  ⟨⟨by decide, by rfl⟩,
   c10_peek_restores_state (ofBytes [1, 2, 3]) 2 [48, 49, 48, 50] (ofBytes [1, 2, 3])
     (by decide) (by rfl)⟩

/- Helper lemmas: the byte-aligned path versus the shift-based reference -/

theorem shiftRef_eq_read_aux (k : Nat) (hk1 : 1 ≤ k) (hk7 : k ≤ 7)
    (data : List Nat) (hwf : ∀ x ∈ data, x < 256) :
    ∀ (n pos : Nat) (bl cl : Option Nat),
      pos + n + 1 ≤ data.length →
      (match readAligned ⟨data, pos, 0, bl⟩ n with
       | .error e => .error e
       | .ok (base, b2) =>
         if k ≠ 0 then
           match shift b2 k with
           | .ok (v, b3) => .ok (base ++ [v], b3)
           | .error e => .error e
         else .ok (base, b2)) = shiftRef ⟨data, pos, 0, cl⟩ n k := by
  intro n
  induction n with
  | zero =>
    intro pos bl cl hlen
    have hpos : pos < data.length := by omega
    have hu : data[pos]? = some data[pos] := List.getElem?_eq_getElem hpos
    have hsb := shift_spec ⟨data, pos, 0, bl⟩ k data[pos]
      (show (0 : Nat) + k ≤ 8 from by omega) hu
    have hsc := shift_spec ⟨data, pos, 0, cl⟩ k data[pos]
      (show (0 : Nat) + k ≤ 8 from by omega) hu
    rw [readAligned]
    dsimp only
    rw [if_pos (show k ≠ 0 from by omega), shiftRef, hsb, hsc]
    simp
  | succ n ih =>
    intro pos bl cl hlen
    have hpos : pos < data.length := by omega
    have hu : data[pos]? = some data[pos] := List.getElem?_eq_getElem hpos
    have hult : data[pos] < 256 := hwf _ (List.getElem_mem hpos)
    have hu255 : (data[pos] >>> 0) &&& lo_masks.getD 8 0 = data[pos] := by
      have h8 := Nat.and_pow_two_sub_one_eq_mod data[pos] 8
      calc (data[pos] >>> 0) &&& lo_masks.getD 8 0 = data[pos] &&& 255 := rfl
      _ = data[pos] % 256 := h8
      _ = data[pos] := Nat.mod_eq_of_lt hult
    have hsc := shift_spec ⟨data, pos, 0, cl⟩ 8 data[pos]
      (show (0 : Nat) + 8 ≤ 8 from by omega) hu
    rw [hu255] at hsc
    rw [readAligned]
    dsimp only
    rw [hu]
    dsimp only
    rw [shiftRef, hsc]
    dsimp only
    simp only [reduceIte]
    rw [← ih (pos + 1) bl (some data[pos]) (by omega)]
    rcases hra : readAligned ⟨data, pos + 1, 0, bl⟩ n with e | ⟨rest, b2⟩
    · rfl
    · dsimp only
      simp only [if_pos (show k ≠ 0 from by omega)]
      rcases hs : shift b2 k with e | ⟨v, b3⟩ <;> simp

/- Claim C7 -/

/-- C7 counterexample: at bit count k = 0 the equivalence fails — read(0,0)
returns the empty sequence and does not move the cursor, while the reference
shift(0) at a byte-aligned position loads a byte, returns the value 0, and
advances the cursor. -/
theorem c7_counterexample :
    (0 * 8 + 0 ≤ 8 * (([0xAB] : List Nat).length - 0)) ∧
    read (ofBytes [0xAB]) 0 0 ≠ shiftRef (ofBytes [0xAB]) 0 0 := by
  refine ⟨by decide, ?_⟩
  rw [show read (ofBytes [0xAB]) 0 0 = .ok ([], ofBytes [0xAB]) from rfl,
      show shiftRef (ofBytes [0xAB]) 0 0 = .ok ([0], ⟨[0xAB], 1, 0, some 0xAB⟩) from rfl]
  intro h
  simp at h

/-- C7 (amended): for all byte counts b and bit counts k with 1 ≤ k ≤ 7 whose
total requested bits do not exceed the remaining stream bits, read(b,k)
invoked at bit offset 0 returns exactly the same sequence of byte-sized
values as calling shift(8) b times followed by shift(k) once, and leaves the
cursor in the same state.  (At k = 0 the reference consumes an extra byte
and appends an extra 0; at k = 8 the final cached byte differs.) -/
theorem c7_read_eq_shiftRef (data : List Nat) (pos bytes k : Nat) (last : Option Nat)
    (hwf : ∀ x ∈ data, x < 256) (hk1 : 1 ≤ k) (hk7 : k ≤ 7)
    (hlen : bytes * 8 + k ≤ 8 * (data.length - pos)) :
    read ⟨data, pos, 0, last⟩ bytes k = shiftRef ⟨data, pos, 0, last⟩ bytes k := by
  have hdiv : k / 8 = 0 := Nat.div_eq_of_lt (by omega)
  have hmod : k % 8 = k := Nat.mod_eq_of_lt (by omega)
  rw [read_unfold]
  simp only [hdiv, hmod, Nat.add_zero]
  rw [if_neg (show ¬ (bytes * 8 + k = 0) from by omega)]
  rw [show (8 : Nat) - (⟨data, pos, 0, last⟩ : ReplayBuffer).bit_shift = 8 from rfl]
  cases bytes with
  | zero =>
    rw [if_pos (show 0 * 8 + k ≤ 8 from by omega)]
    rw [show 0 * 8 + k = k from by omega]
    rw [shiftRef]
  | succ m =>
    rw [if_neg (show ¬ ((m + 1) * 8 + k ≤ 8) from by omega)]
    rw [if_pos trivial]
    exact shiftRef_eq_read_aux k hk1 hk7 data hwf (m + 1) pos last last (by omega)

/-- C7 witness: the amended equivalence at one byte plus four bits. -/
theorem c7_read_eq_shiftRef_witness :
    ((∀ x ∈ ([0xAB, 0xCD] : List Nat), x < 256) ∧ (1 : Nat) ≤ 4 ∧ (4 : Nat) ≤ 7 ∧
      1 * 8 + 4 ≤ 8 * (([0xAB, 0xCD] : List Nat).length - 0)) ∧
    read ⟨[0xAB, 0xCD], 0, 0, none⟩ 1 4 = shiftRef ⟨[0xAB, 0xCD], 0, 0, none⟩ 1 4 :=
  ⟨⟨by decide, by decide, by decide, by decide⟩,
   c7_read_eq_shiftRef [0xAB, 0xCD] 0 1 4 none (by decide) (by decide) (by decide)
     (by decide)⟩

/- Helper lemmas: past-the-end behaviour -/

theorem shift_eof (b : ReplayBuffer) (bits : Nat) (hbs : b.bit_shift = 0)
    (hpos : b.data.length ≤ b.pos) (h8 : bits ≤ 8) :
    shift b bits = .error .eof := by
  have hv : b.data[b.pos]? = none := List.getElem?_eq_none hpos
  simp [shift, hbs, hv, h8]

theorem readLoop_err (data : List Nat) (st : ReadState) (old : Nat) (bitCount : Nat) :
    ∀ (pos first next : Nat) (acc : List Nat),
      pos ≤ data.length →
      data.length < pos + needBytes bitCount →
      readLoop data st old pos first next bitCount acc = .error .eof := by
  induction bitCount using Nat.strong_induction_on with
  | _ bitCount ih =>
    intro pos first next acc hpos hlen
    rw [needBytes] at hlen
    by_cases h8 : bitCount ≤ 8
    · rw [if_pos h8] at hlen
      omega
    · rw [if_neg h8] at hlen
      rw [readLoop, if_neg (show ¬ bitCount = 0 from by omega), if_neg h8]
      rcases hv : data[pos]? with _ | nx
      · rfl
      · have hlt : pos < data.length := (List.getElem?_eq_some_iff.mp hv).1
        exact ih (bitCount - 8) (by omega) (pos + 1) _ nx _ (by omega) (by omega)

theorem unpackShort_not_two (l : List Nat) (h : l.length ≠ 2) (en : Endian) :
    unpackShort en l = .error .structError := by
  rcases l with _ | ⟨a, _ | ⟨b, _ | ⟨c, t⟩⟩⟩ <;> cases en <;>
    first
      | rfl
      | (exfalso; simp at h)

theorem unpackInt_not_four (l : List Nat) (h : l.length ≠ 4) (en : Endian) :
    unpackInt en l = .error .structError := by
  rcases l with _ | ⟨a, _ | ⟨b, _ | ⟨c, _ | ⟨d, _ | ⟨e, t⟩⟩⟩⟩⟩ <;> cases en <;>
    first
      | rfl
      | (exfalso; simp at h)

/- Claim C2 -/

/-- C2 counterexample: a byte-aligned read_chars that would consume past the
end does not raise the end-of-stream condition — it silently returns the
truncated remaining bytes (here 2 bytes instead of the 4 requested). -/
theorem c2_counterexample :
    read_chars (ofBytes [65, 66]) 4 = .ok ([65, 66], ⟨[65, 66], 2, 0, none⟩) ∧
    ([65, 66] : List Nat).length < 4 :=
  ⟨rfl, by decide⟩

/-- C2 (amended): bit-level reads past the end raise end-of-stream — shift,
read on its byte-aligned and general paths, and hence the byte-level reads
entered at a non-zero bit offset; byte-aligned read_byte raises a TypeError
(ord of an empty read) and byte-aligned read_short/read_int raise a
struct-unpack error rather than the end-of-stream condition; and byte-aligned
read_chars does NOT raise at all: it silently returns only the bytes that
remain. -/
theorem c2_past_end_behavior :
    (∀ b bits, b.bit_shift = 0 → b.data.length ≤ b.pos → 1 ≤ bits → bits ≤ 8 →
       shift b bits = .error .eof) ∧
    (∀ b bytes bits, b.bit_shift = 0 →
       ¬ (bytes + bits / 8) * 8 + bits % 8 = 0 →
       b.data.length < b.pos + ((bytes + bits / 8) + (if bits % 8 = 0 then 0 else 1)) →
       read b bytes bits = .error .eof) ∧
    (∀ b bytes bits, 1 ≤ b.bit_shift → b.bit_shift < 8 →
       8 - b.bit_shift < (bytes + bits / 8) * 8 + bits % 8 →
       b.data.length <
         b.pos + 1 + needBytes ((bytes + bits / 8) * 8 + bits % 8 - (8 - b.bit_shift)) →
       read b bytes bits = .error .eof) ∧
    (∀ b, b.bit_shift = 0 → b.data.length ≤ b.pos → read_byte b = .error .typeError) ∧
    (∀ b en, b.bit_shift = 0 → b.data.length < b.pos + 2 →
       read_short b en = .error .structError) ∧
    (∀ b en, b.bit_shift = 0 → b.data.length < b.pos + 4 →
       read_int b en = .error .structError) ∧
    (∀ b n, b.bit_shift = 0 → b.pos ≤ b.data.length → b.data.length < b.pos + n →
       read_chars b n = .ok ((b.data.drop b.pos).take n, { b with pos := b.data.length }) ∧
       ((b.data.drop b.pos).take n).length < n) := by
  refine ⟨?_, ?_, ?_, ?_, ?_, ?_, ?_⟩
  · intro b bits hbs hpos h1 h8
    exact shift_eof b bits hbs hpos h8
  · intro b bytes bits hbs h0 hlen
    rw [read_unfold, if_neg h0]
    simp only [hbs, Nat.sub_zero]
    by_cases hsm : (bytes + bits / 8) * 8 + bits % 8 ≤ 8
    · rw [if_pos hsm]
      have hp : b.data.length ≤ b.pos := by
        by_cases hz : bits % 8 = 0 <;> simp [hz] at hlen <;> omega
      rw [shift_eof b _ hbs hp (by omega)]
    · rw [if_neg hsm, if_pos trivial]
      by_cases hAl : b.pos + (bytes + bits / 8) ≤ b.data.length
      · rw [readAligned_of_le b (bytes + bits / 8) hAl]
        dsimp only
        have hz : bits % 8 ≠ 0 := by
          by_cases hzz : bits % 8 = 0
          · simp [hzz] at hlen
            omega
          · exact hzz
        rw [if_pos hz]
        have hp2 : b.data.length ≤ b.pos + (bytes + bits / 8) := by
          simp [hz] at hlen
          omega
        rw [shift_eof { b with pos := b.pos + (bytes + bits / 8) } (bits % 8) hbs
              (by simpa using hp2) (by omega)]
      · rw [readAligned_err b (bytes + bits / 8) (by omega) (by omega)]
  · intro b bytes bits h1 h8 hgt hlen
    rw [read_unfold, if_neg (show ¬ (bytes + bits / 8) * 8 + bits % 8 = 0 from by omega),
        if_neg (show ¬ (bytes + bits / 8) * 8 + bits % 8 ≤ 8 - b.bit_shift from by omega),
        if_neg (show ¬ b.bit_shift = 0 from by omega)]
    rcases hv : b.data[b.pos]? with _ | next
    · rfl
    · rcases hl : b.last_byte with _ | prev
      · rfl
      · have hlt : b.pos < b.data.length := (List.getElem?_eq_some_iff.mp hv).1
        dsimp only
        rw [readLoop_err b.data _ b.bit_shift _ (b.pos + 1) _ next [] (by omega) (by omega)]
  · intro b hbs hpos
    have hv : b.data[b.pos]? = none := List.getElem?_eq_none hpos
    simp [read_byte, hbs, hv]
  · intro b en hbs hlen
    have hne : ((b.data.drop b.pos).take 2).length ≠ 2 := by
      simp [List.length_take, List.length_drop]
      omega
    simp [read_short, hbs, read_basic, unpackShort_not_two _ hne en]
  · intro b en hbs hlen
    have hne : ((b.data.drop b.pos).take 4).length ≠ 4 := by
      simp [List.length_take, List.length_drop]
      omega
    simp [read_int, hbs, read_basic, unpackInt_not_four _ hne en]
  · intro b n hbs hple hlen
    constructor
    · rw [read_chars, if_pos hbs]
      have hmin : min n (b.data.length - b.pos) = b.data.length - b.pos := by omega
      simp [read_basic, hmin]
      omega
    · simp [List.length_take, List.length_drop]
      omega

/-- C2 witness: each conjunct of the amended theorem at a concrete buffer. -/
theorem c2_past_end_behavior_witness :
    shift (ofBytes []) 8 = .error .eof ∧
    read (ofBytes [1]) 2 0 = .error .eof ∧
    read ⟨[1], 1, 3, some 1⟩ 1 0 = .error .eof ∧
    read_byte (ofBytes []) = .error .typeError ∧
    read_short (ofBytes [9]) .little = .error .structError ∧
    read_int (ofBytes [9]) .little = .error .structError ∧
    (read_chars (ofBytes [65, 66]) 4 =
       .ok ([65, 66], ⟨[65, 66], 2, 0, none⟩) ∧
     (([65, 66] : List Nat).drop 0).take 4 = [65, 66]) := by
  obtain ⟨h1, h2, h3, h4, h5, h6, h7⟩ := c2_past_end_behavior
  refine ⟨h1 (ofBytes []) 8 rfl (by decide) (by decide) (by decide),
          h2 (ofBytes [1]) 2 0 rfl (by decide) (by decide),
          h3 ⟨[1], 1, 3, some 1⟩ 1 0 (by decide) (by decide) (by decide)
            (by simp [needBytes]),
          h4 (ofBytes []) rfl (by decide),
          h5 (ofBytes [9]) .little rfl (by decide),
          h6 (ofBytes [9]) .little rfl (by decide),
          ?_, by decide⟩
  have := (h7 (ofBytes [65, 66]) 4 rfl (by decide) (by decide)).1
  simpa using this

/- Helper lemmas: invariant preservation (C3) -/

theorem seek_unfold (b : ReplayBuffer) (p : Int) (m : SeekMode) :
    seek b p m =
      (if seekTarget b p m < 0 then .error .ioError
       else if (seekTarget b p m).toNat ≠ 0 ∧ b.bit_shift ≠ 0 then
         match b.data[(seekTarget b p m).toNat - 1]? with
         | some v => .ok ⟨b.data, (seekTarget b p m).toNat, b.bit_shift, some v⟩
         | none => .error .typeError
       else .ok ⟨b.data, (seekTarget b p m).toNat, b.bit_shift, b.last_byte⟩) := rfl

theorem seek_inv (b : ReplayBuffer) (p : Int) (m : SeekMode) (b2 : ReplayBuffer)
    (hI : Inv b) (hle : seekTarget b p m ≤ (b.data.length : Int))
    (h : seek b p m = .ok b2) : Inv b2 := by
  obtain ⟨hbs, hpos, hcache⟩ := hI
  rw [seek_unfold] at h
  by_cases h1 : seekTarget b p m < 0
  · rw [if_pos h1] at h
    exact absurd h (by simp)
  rw [if_neg h1] at h
  have htn : (seekTarget b p m).toNat ≤ b.data.length := by omega
  by_cases h2 : (seekTarget b p m).toNat ≠ 0 ∧ b.bit_shift ≠ 0
  · rw [if_pos h2] at h
    rcases hv : b.data[(seekTarget b p m).toNat - 1]? with _ | u <;> rw [hv] at h
    · exact absurd h (by simp)
    · simp only [Except.ok.injEq] at h
      subst h
      exact ⟨hbs, htn, fun _ _ => hv.symm⟩
  · rw [if_neg h2] at h
    simp only [Except.ok.injEq] at h
    subst h
    refine ⟨hbs, htn, fun hb hp => ?_⟩
    exact absurd ⟨hp, hb⟩ h2

theorem shift_inv (b : ReplayBuffer) (w v : Nat) (b2 : ReplayBuffer)
    (hI : Inv b) (h : shift b w = .ok (v, b2)) : Inv b2 := by
  obtain ⟨hbs, hpos, hcache⟩ := hI
  obtain ⟨hd, hbs2, hle, hz, hnz⟩ := shift_state b w v b2 h
  by_cases h0 : b.bit_shift = 0
  · obtain ⟨u, hu, hp, hlast⟩ := hz h0
    have hlt : b.pos < b.data.length := (List.getElem?_eq_some_iff.mp hu).1
    refine ⟨?_, ?_, ?_⟩
    · rw [hbs2]
      split <;> omega
    · rw [hd, hp]
      omega
    · intro _ _
      rw [hlast, hp, hd, Nat.add_sub_cancel]
      exact hu.symm
  · obtain ⟨hp, hlast⟩ := hnz h0
    refine ⟨?_, ?_, ?_⟩
    · rw [hbs2]
      split <;> omega
    · rw [hd, hp]
      exact hpos
    · intro _ hp2
      rw [hlast, hd, hp]
      rw [hp] at hp2
      exact hcache h0 hp2

theorem readAligned_inv (b : ReplayBuffer) (n : Nat) (base : List Nat)
    (bb : ReplayBuffer) (hI : Inv b) (hb0 : b.bit_shift = 0)
    (h : readAligned b n = .ok (base, bb)) : Inv bb := by
  obtain ⟨hbb, hlen⟩ := readAligned_ok_state n b base bb h
  subst hbb
  refine ⟨hI.1, ?_, fun hc => absurd hb0 hc⟩
  rcases Nat.eq_zero_or_pos n with hn | hn
  · show b.pos + n ≤ b.data.length
    have := hI.2.1
    omega
  · have := hlen hn
    simp at this
    show b.pos + n ≤ b.data.length
    omega

theorem read_inv (b : ReplayBuffer) (bytes bits : Nat) (l : List Nat) (b2 : ReplayBuffer)
    (hI : Inv b) (h : read b bytes bits = .ok (l, b2)) : Inv b2 := by
  rw [read_unfold] at h
  split_ifs at h with h0 hsm hb0 hz
  · simp only [Except.ok.injEq, Prod.mk.injEq] at h
    obtain ⟨_, hb2⟩ := h
    subst hb2
    exact hI
  · rcases hs : shift b ((bytes + bits / 8) * 8 + bits % 8) with e | ⟨v, bb⟩ <;>
      rw [hs] at h
    · exact absurd h (by simp)
    · simp only [Except.ok.injEq, Prod.mk.injEq] at h
      obtain ⟨_, hb2⟩ := h
      subst hb2
      exact shift_inv b _ v bb hI hs
  · rcases hra : readAligned b (bytes + bits / 8) with e | ⟨base, bb⟩ <;> rw [hra] at h
    · exact absurd h (by simp)
    · dsimp only at h
      have hIbb : Inv bb := readAligned_inv b _ base bb hI hb0 hra
      rcases hs : shift bb (bits % 8) with e | ⟨v, b3⟩ <;> rw [hs] at h
      · exact absurd h (by simp)
      · simp only [Except.ok.injEq, Prod.mk.injEq] at h
        obtain ⟨_, hb2⟩ := h
        subst hb2
        exact shift_inv bb _ v _ hIbb hs
  · rcases hra : readAligned b (bytes + bits / 8) with e | ⟨base, bb⟩ <;> rw [hra] at h
    · exact absurd h (by simp)
    · dsimp only at h
      simp only [Except.ok.injEq, Prod.mk.injEq] at h
      obtain ⟨_, hb2⟩ := h
      subst hb2
      exact readAligned_inv b _ base _ hI hb0 hra
  · rcases hv : b.data[b.pos]? with _ | next
    · rw [hv] at h
      exact absurd h (by simp)
    · rcases hl : b.last_byte with _ | prev
      · rw [hv, hl] at h
        exact absurd h (by simp)
      · rw [hv, hl] at h
        dsimp only at h
        rcases hloop : readLoop b.data
            (load_state b.bit_shift ((b.bit_shift + bits % 8) % 8)) b.bit_shift
            (b.pos + 1)
            (prev &&& (load_state b.bit_shift ((b.bit_shift + bits % 8) % 8)).hi_mask)
            next ((bytes + bits / 8) * 8 + bits % 8 - (8 - b.bit_shift)) []
            with e | ⟨raw, pos2, next2⟩ <;> rw [hloop] at h
        · exact absurd h (by simp)
        · simp only [Except.ok.injEq, Prod.mk.injEq] at h
          obtain ⟨_, hb2⟩ := h
          subst hb2
          obtain ⟨hnx, hp1, hple, _⟩ := readLoop_state b.data _ b.bit_shift _
            (b.pos + 1) _ next [] raw pos2 next2 hloop (by simpa using hv) (by omega)
          refine ⟨?_, hple, fun _ _ => hnx.symm⟩
          show (b.bit_shift + bits % 8) % 8 < 8
          omega

theorem read_basic_inv (b : ReplayBuffer) (n : Nat) (hI : Inv b)
    (hbs : b.bit_shift = 0) : Inv (read_basic b n).2 := by
  obtain ⟨h1, h2, _⟩ := hI
  refine ⟨h1, ?_, fun hc => absurd hbs hc⟩
  show b.pos + min n (b.data.length - b.pos) ≤ b.data.length
  omega

theorem read_chars_inv (b : ReplayBuffer) (n : Nat) (l : List Nat) (b2 : ReplayBuffer)
    (hI : Inv b) (h : read_chars b n = .ok (l, b2)) : Inv b2 := by
  rw [read_chars] at h
  by_cases hbs : b.bit_shift = 0
  · rw [if_pos hbs] at h
    simp only [Except.ok.injEq] at h
    have h2 := congrArg (fun p => p.2) h
    simp only at h2
    rw [← h2]
    exact read_basic_inv b n hI hbs
  · rw [if_neg hbs] at h
    exact read_inv b n 0 l b2 hI h

theorem read_byte_inv (b : ReplayBuffer) (v : Nat) (b2 : ReplayBuffer)
    (hI : Inv b) (h : read_byte b = .ok (v, b2)) : Inv b2 := by
  rw [read_byte] at h
  by_cases hbs : b.bit_shift = 0
  · rw [if_pos hbs] at h
    rcases hv : b.data[b.pos]? with _ | u <;> rw [hv] at h
    · exact absurd h (by simp)
    · simp only [Except.ok.injEq, Prod.mk.injEq] at h
      obtain ⟨_, hb2⟩ := h
      subst hb2
      have hlt : b.pos < b.data.length := (List.getElem?_eq_some_iff.mp hv).1
      exact ⟨hI.1, show b.pos + 1 ≤ b.data.length from hlt, fun hc => absurd hbs hc⟩
  · rw [if_neg hbs] at h
    rcases hr : read b 1 0 with e | ⟨lr, bb⟩ <;> rw [hr] at h
    · exact absurd h (by simp)
    · dsimp only at h
      rcases hh : lr.head? with _ | u <;> rw [hh] at h
      · exact absurd h (by simp)
      · simp only [Except.ok.injEq, Prod.mk.injEq] at h
        obtain ⟨_, hb2⟩ := h
        subst hb2
        exact read_inv b 1 0 lr bb hI hr

theorem read_short_inv (b : ReplayBuffer) (en : Endian) (v : Nat) (b2 : ReplayBuffer)
    (hI : Inv b) (h : read_short b en = .ok (v, b2)) : Inv b2 := by
  rw [read_short] at h
  by_cases hbs : b.bit_shift = 0
  · rw [if_pos hbs] at h
    rw [show read_basic b 2 = ((b.data.drop b.pos).take 2,
          { b with pos := b.pos + min 2 (b.data.length - b.pos) }) from rfl] at h
    dsimp only at h
    rcases hu : unpackShort en ((b.data.drop b.pos).take 2) with e | u <;> rw [hu] at h
    · exact absurd h (by simp)
    · simp only [Except.ok.injEq, Prod.mk.injEq] at h
      obtain ⟨_, hb2⟩ := h
      subst hb2
      exact read_basic_inv b 2 hI hbs
  · rw [if_neg hbs] at h
    rcases hc : read_chars b 2 with e | ⟨chars, bb⟩ <;> rw [hc] at h
    · exact absurd h (by simp)
    · dsimp only at h
      rcases hu : unpackShort en chars with e | u <;> rw [hu] at h
      · exact absurd h (by simp)
      · simp only [Except.ok.injEq, Prod.mk.injEq] at h
        obtain ⟨_, hb2⟩ := h
        subst hb2
        exact read_chars_inv b 2 chars bb hI hc

theorem read_int_inv (b : ReplayBuffer) (en : Endian) (v : Nat) (b2 : ReplayBuffer)
    (hI : Inv b) (h : read_int b en = .ok (v, b2)) : Inv b2 := by
  rw [read_int] at h
  by_cases hbs : b.bit_shift = 0
  · rw [if_pos hbs] at h
    rw [show read_basic b 4 = ((b.data.drop b.pos).take 4,
          { b with pos := b.pos + min 4 (b.data.length - b.pos) }) from rfl] at h
    dsimp only at h
    rcases hu : unpackInt en ((b.data.drop b.pos).take 4) with e | u <;> rw [hu] at h
    · exact absurd h (by simp)
    · simp only [Except.ok.injEq, Prod.mk.injEq] at h
      obtain ⟨_, hb2⟩ := h
      subst hb2
      exact read_basic_inv b 4 hI hbs
  · rw [if_neg hbs] at h
    rcases hc : read_chars b 4 with e | ⟨chars, bb⟩ <;> rw [hc] at h
    · exact absurd h (by simp)
    · dsimp only at h
      rcases hu : unpackInt en chars with e | u <;> rw [hu] at h
      · exact absurd h (by simp)
      · simp only [Except.ok.injEq, Prod.mk.injEq] at h
        obtain ⟨_, hb2⟩ := h
        subst hb2
        exact read_chars_inv b 4 chars bb hI hc

theorem execOp_inv (b : ReplayBuffer) (op : Op) (b2 : ReplayBuffer)
    (hI : Inv b) (hB : opInBounds b op = true) (h : execOp b op = .ok b2) : Inv b2 := by
  cases op with
  | seekOp p m =>
    simp only [opInBounds, Bool.and_eq_true, decide_eq_true_eq] at hB
    exact seek_inv b p m b2 hI hB.2 h
  | skipOp a =>
    simp only [opInBounds, Bool.and_eq_true, decide_eq_true_eq] at hB
    exact seek_inv b a .cur b2 hI hB.2 h
  | resetOp =>
    simp only [execOp, Except.ok.injEq] at h
    subst h
    exact ⟨show (0 : Nat) < 8 from by decide, Nat.zero_le _, fun hc => absurd rfl hc⟩
  | alignOp =>
    simp only [execOp, Except.ok.injEq] at h
    subst h
    exact ⟨show (0 : Nat) < 8 from by decide, hI.2.1, fun hc => absurd rfl hc⟩
  | readByteOp =>
    simp only [execOp] at h
    rcases hr : read_byte b with e | ⟨v, bb⟩ <;> rw [hr] at h
    · exact absurd h (by simp)
    · simp only [Except.ok.injEq] at h
      subst h
      exact read_byte_inv b v bb hI hr
  | readShortOp en =>
    simp only [execOp] at h
    rcases hr : read_short b en with e | ⟨v, bb⟩ <;> rw [hr] at h
    · exact absurd h (by simp)
    · simp only [Except.ok.injEq] at h
      subst h
      exact read_short_inv b en v bb hI hr
  | readIntOp en =>
    simp only [execOp] at h
    rcases hr : read_int b en with e | ⟨v, bb⟩ <;> rw [hr] at h
    · exact absurd h (by simp)
    · simp only [Except.ok.injEq] at h
      subst h
      exact read_int_inv b en v bb hI hr
  | readCharsOp n =>
    simp only [execOp] at h
    rcases hr : read_chars b n with e | ⟨lr, bb⟩ <;> rw [hr] at h
    · exact absurd h (by simp)
    · simp only [Except.ok.injEq] at h
      subst h
      exact read_chars_inv b n lr bb hI hr
  | shiftOp bits =>
    simp only [execOp] at h
    rcases hr : shift b bits with e | ⟨v, bb⟩ <;> rw [hr] at h
    · exact absurd h (by simp)
    · simp only [Except.ok.injEq] at h
      subst h
      exact shift_inv b bits v bb hI hr
  | readOp bytes bits =>
    simp only [execOp] at h
    rcases hr : read b bytes bits with e | ⟨lr, bb⟩ <;> rw [hr] at h
    · exact absurd h (by simp)
    · simp only [Except.ok.injEq] at h
      subst h
      exact read_inv b bytes bits lr bb hI hr

/- Claim C3 -/

/-- C3 counterexample: on buffer [0xAB, 0xCD], shift(3) then an in-bounds
seek(0) leaves bit offset 3 with byte offset 0 — the cache (stale byte 0xAB)
cannot hold "the byte at offset−1" because no such byte exists, refuting the
spec's unconditional form of the cache clause. -/
theorem c3_counterexample :
    execOps ⟨[171, 205], 0, 0, none⟩ [.shiftOp 3, .seekOp 0 .set] =
      .ok ⟨[171, 205], 0, 3, some 171⟩ ∧
    opsInBounds ⟨[171, 205], 0, 0, none⟩ [.shiftOp 3, .seekOp 0 .set] = true ∧
    Inv ⟨[171, 205], 0, 0, none⟩ ∧
    ¬ InvClaimed ⟨[171, 205], 0, 3, some 171⟩ := by
  refine ⟨rfl, rfl, ⟨by decide, by decide, fun hc => absurd rfl hc⟩, ?_⟩
  intro hc
  exact absurd ((hc.2.2 (by decide)).1) (by decide)

/-- C3 (amended): after every sequence of cursor operations (seek/skip/reset/
align and the read operations) with seeks restricted to in-bounds resulting
offsets, starting from a state satisfying the invariant, the cursor state
satisfies: the bit offset is in [0,8), the byte offset is between 0 and the
buffer length, and whenever the bit offset AND the byte offset are both
non-zero the one-byte cache holds the byte of the buffer at offset−1 (the
spec's form without the byte-offset guard fails: a seek to offset 0 keeps a
non-zero bit offset but cannot cache a byte at offset −1). -/
theorem c3_cursor_invariant (ops : List Op) :
    ∀ (b b2 : ReplayBuffer), Inv b → opsInBounds b ops = true →
      execOps b ops = .ok b2 → Inv b2 := by
  induction ops with
  | nil =>
    intro b b2 hI _ h
    rw [execOps] at h
    simp only [Except.ok.injEq] at h
    subst h
    exact hI
  | cons op ops ih =>
    intro b b2 hI hB h
    rw [execOps] at h
    rw [opsInBounds] at hB
    simp only [Bool.and_eq_true] at hB
    rcases he : execOp b op with e | bb <;> rw [he] at h
    · exact absurd h (by simp)
    · have hIb := execOp_inv b op bb hI hB.1 he
      have hB2 : opsInBounds bb ops = true := by
        have hm := hB.2
        rw [he] at hm
        exact hm
      exact ih bb b2 hIb hB2 h

/-- C3 witness: the amended invariant holds after the counterexample's own
operation sequence (shift 3 then seek 0). -/
theorem c3_cursor_invariant_witness :
    Inv (⟨[171, 205], 0, 3, some 171⟩ : ReplayBuffer) :=
  c3_cursor_invariant [.shiftOp 3, .seekOp 0 .set] (ofBytes [171, 205])
    ⟨[171, 205], 0, 3, some 171⟩
    ⟨by decide, by decide, fun hc => absurd rfl hc⟩ rfl rfl

end ReplayBuffer

end SC2
